import Mathlib

/-!
Verification of the geodesic-sphere mesh generator in `lib/geodesic_math.py`
(class `GeodesicCalculator`).

The Python source computes with IEEE floating-point numbers and the library
functions `math.sqrt`, `math.cos`, `math.sin` and the constant `math.pi`.
The embedding idealises machine floats as exact elements of a linear ordered
field `K` and is parametric in those four operations, since their exact values
are not representable in a computable field.  Instantiating `K := ℝ` with
`Real.sqrt`, `Real.cos`, `Real.sin` and `Real.pi` gives the idealised
real-number semantics; instantiating `K := ℚ` with concrete rational stand-ins
gives an executable model used for concrete witnesses.  Python's
`round(x, 8)` is idealised as rounding `x * 10^8` to the nearest integer
(Python rounds ties to even; no tie arises in any statement below).
-/

set_option linter.unusedSectionVars false

namespace Geodesic

/-- A 3-d point `(x, y, z)` (Python tuples of three floats). -/
abbrev Pt (K : Type) := K × K × K

/-- A triangular face: three indices into a vertex list. -/
abbrev Face := ℕ × ℕ × ℕ

variable {K : Type} [LinearOrderedField K] [FloorRing K] [DecidableEq K]

/-- Python `round(x, 8)` idealised over `K`. -/
def round8 (x : K) : K := (round (x * 10 ^ 8) : ℤ) / 10 ^ 8

/-- The merge key of a point: `tuple(round(coord, 8) for coord in v)`
(the identical expression appears at source lines 106, 150, 162, 171 and
179-181). -/
def roundKey (v : Pt K) : Pt K := (round8 v.1, round8 v.2.1, round8 v.2.2)

/-- `GeodesicCalculator._normalize_and_scale` (source lines 130-140):
compute `length = sqrt(x*x + y*y + z*z)`; if the length is zero return the
zero vector, otherwise divide each coordinate by the length and multiply by
`radius`. -/
def normalizeAndScale (sqrt : K → K) (radius : K) (v : Pt K) : Pt K :=
  let length := sqrt (v.1 * v.1 + v.2.1 * v.2.1 + v.2.2 * v.2.2)
  if length = 0 then (0, 0, 0)
  else (radius * v.1 / length, radius * v.2.1 / length, radius * v.2.2 / length)

/-- One barycentric grid sample of `_subdivide_triangle` (source lines
88-100): weights `a = i/freq`, `b = j/freq` when `freq > 0` (both `0`
otherwise), `c = 1 - a - b`, interpolated as `a*v0 + b*v1 + c*v2`. -/
def baryPoint (v0 v1 v2 : Pt K) (freq i j : ℕ) : Pt K :=
  let a : K := if 0 < freq then (i : K) / (freq : K) else 0
  let b : K := if 0 < freq then (j : K) / (freq : K) else 0
  let c : K := 1 - a - b
  (a * v0.1 + b * v1.1 + c * v2.1,
   a * v0.2.1 + b * v1.2.1 + c * v2.2.1,
   a * v0.2.2 + b * v1.2.2 + c * v2.2.2)

/-- State of the vertex-deduplication loops: the vertex list built so far
together with the key-to-index dictionary (`verts`/`vert_map` in
`_subdivide_triangle`, `unique_verts`/`index_map` in `_merge_duplicates`).
The dictionary is modelled as an association list; every key is inserted at
most once, so the first matching entry is the dictionary binding. -/
structure DState (K : Type) where
  verts : List (Pt K)
  vmap : List (Pt K × ℕ)

/-- Dictionary read: the value bound to key `k`, if present. -/
def alookup (m : List (Pt K × ℕ)) (k : Pt K) : Option ℕ :=
  match m with
  | [] => none
  | (k', i) :: m' => if k' = k then some i else alookup m' k

/-- Processing one point in a deduplication loop (source lines 106-111 and
170-174): if the point's key is new, bind it to the current vertex count and
append the point; return the index bound to the key. -/
def dstep (st : DState K) (pt : Pt K) : DState K × ℕ :=
  let key := roundKey pt
  match alookup st.vmap key with
  | some idx => (st, idx)
  | none => (⟨st.verts ++ [pt], st.vmap ++ [(key, st.verts.length)]⟩, st.verts.length)

/-- Running the deduplication loop over a list of points, collecting the
per-point indices (`row.append(vert_map[key])`, source line 111). -/
def drun (st : DState K) (pts : List (Pt K)) : DState K × List ℕ :=
  match pts with
  | [] => (st, [])
  | p :: ps =>
    let s1 := dstep st p
    let s2 := drun s1.1 ps
    (s2.1, s1.2 :: s2.2)

/-- Face construction from the index grid, `_subdivide_triangle` lines
114-127: for each row `i < freq` and column `j < freq - i` emit the upward
triangle `(grid[i][j], grid[i+1][j], grid[i][j+1])`, and when
`j < freq - i - 1` additionally the downward triangle
`(grid[i+1][j], grid[i+1][j+1], grid[i][j+1])`.  Python indexing is always
in bounds here; out-of-range access is modelled by a default of `[]`/`0`. -/
def gridFaces (grid : List (List ℕ)) (freq : ℕ) : List Face :=
  (List.range freq).foldl (fun faces i =>
    (List.range (freq - i)).foldl (fun faces j =>
      let vA := (grid.getD i []).getD j 0
      let vB := (grid.getD (i + 1) []).getD j 0
      let vC := (grid.getD i []).getD (j + 1) 0
      let faces := faces ++ [(vA, vB, vC)]
      if j < freq - i - 1 then
        let vD := (grid.getD (i + 1) []).getD (j + 1) 0
        faces ++ [(vB, vD, vC)]
      else faces) faces) []

/-- `GeodesicCalculator._subdivide_triangle` (source lines 77-128): build the
triangular grid of barycentric samples row by row, projecting each sample to
the sphere and deduplicating by rounded key inside the call, then emit the
faces from the grid.  The Python loop threads `verts`/`vert_map` through the
samples in row-major order while appending one row of indices to `grid` per
outer iteration; `drun` models the thread over one row's samples. -/
def subdivideTriangle (sqrt : K → K) (radius : K) (v0 v1 v2 : Pt K) (freq : ℕ) :
    List (Pt K) × List Face :=
  let start : DState K × List (List ℕ) := (⟨[], []⟩, [])
  let res := (List.range (freq + 1)).foldl (fun acc i =>
    let pts := (List.range (freq + 1 - i)).map
      (fun j => normalizeAndScale sqrt radius (baryPoint v0 v1 v2 freq i j))
    let r := drun acc.1 pts
    (r.1, acc.2 ++ [r.2])) start
  (res.1.verts, gridFaces res.2 freq)

/-- The raw icosahedron vertices of `_create_icosahedron` (source lines
45-62), before normalisation.  `sine_of_phi = 2/sqrt(5)`,
`cosine_of_phi = 0.5 * sine_of_phi`; the source's decimal literals `0.4` and
`0.8` are the exact field values `4/10` and `8/10`. -/
def rawIcoVerts (sqrt cos sin : K → K) (pi : K) : List (Pt K) :=
  let sineOfPhi : K := 2 / sqrt 5
  let cosineOfPhi : K := (1 / 2) * sineOfPhi
  [ (0, 0, 1),
    (sineOfPhi, 0, cosineOfPhi),
    (sineOfPhi * cos ((4 / 10) * pi), sineOfPhi * sin ((4 / 10) * pi), cosineOfPhi),
    (sineOfPhi * cos ((8 / 10) * pi), sineOfPhi * sin ((8 / 10) * pi), cosineOfPhi),
    (sineOfPhi * cos ((8 / 10) * pi), -(sineOfPhi * sin ((8 / 10) * pi)), cosineOfPhi),
    (sineOfPhi * cos ((4 / 10) * pi), -(sineOfPhi * sin ((4 / 10) * pi)), cosineOfPhi),
    (-(sineOfPhi * cos ((8 / 10) * pi)), -(sineOfPhi * sin ((8 / 10) * pi)), -cosineOfPhi),
    (-(sineOfPhi * cos ((8 / 10) * pi)), sineOfPhi * sin ((8 / 10) * pi), -cosineOfPhi),
    (-(sineOfPhi * cos ((4 / 10) * pi)), sineOfPhi * sin ((4 / 10) * pi), -cosineOfPhi),
    (-sineOfPhi, 0, -cosineOfPhi),
    (-(sineOfPhi * cos ((4 / 10) * pi)), -(sineOfPhi * sin ((4 / 10) * pi)), -cosineOfPhi),
    (0, 0, -1) ]

/-- The icosahedron face list (source lines 68-73, "pyDome ordering"). -/
def icosahedronFaceList : List Face :=
  [ (1, 2, 0), (2, 3, 0), (3, 4, 0), (4, 5, 0), (5, 1, 0),
    (5, 6, 1), (1, 7, 2), (2, 8, 3), (3, 9, 4), (4, 10, 5),
    (1, 6, 7), (2, 7, 8), (3, 8, 9), (4, 9, 10), (5, 10, 6),
    (6, 11, 7), (7, 11, 8), (8, 11, 9), (9, 11, 10), (10, 11, 6) ]

/-- `GeodesicCalculator._create_icosahedron` (source lines 42-75): the raw
vertices, each normalised and scaled, together with the fixed face list. -/
def createIcosahedron (sqrt cos sin : K → K) (pi radius : K) :
    List (Pt K) × List Face :=
  ((rawIcoVerts sqrt cos sin pi).map (normalizeAndScale sqrt radius),
   icosahedronFaceList)

/-- `GeodesicCalculator._merge_duplicates` (source lines 142-188).  Lines
144-166 of the source (the `threshold` constant and the passes building
`vert_map` and `final_map` together with their `unique_verts` appends) have
no effect on the returned values: `threshold`, `vert_map` and `final_map` are
never read afterwards and `unique_verts` is reassigned to `[]` on line 168
before any read.  Only the pass on lines 168-174 (deduplicate the vertices by
rounded key, in first-occurrence order) and the face remap on lines 176-186
(replace each face index by the merged index of its vertex's key, dropping
faces whose three merged indices are not pairwise distinct) determine the
result, and they are what is modelled.  Python's `verts[face[k]]` and
`index_map[key]` accesses are total here (`getD` defaults) but every use in
this file has in-bounds faces, matching Python's partiality. -/
def mergeDuplicates (verts : List (Pt K)) (faces : List Face) :
    List (Pt K) × List Face :=
  let st := verts.foldl (fun st v => (dstep st v).1) (⟨[], []⟩ : DState K)
  let newFaces := faces.foldl (fun nf face =>
    let k0 := roundKey (verts.getD face.1 (0, 0, 0))
    let k1 := roundKey (verts.getD face.2.1 (0, 0, 0))
    let k2 := roundKey (verts.getD face.2.2 (0, 0, 0))
    let n0 := (alookup st.vmap k0).getD 0
    let n1 := (alookup st.vmap k1).getD 0
    let n2 := (alookup st.vmap k2).getD 0
    if n0 ≠ n1 ∧ n1 ≠ n2 ∧ n0 ≠ n2 then nf ++ [(n0, n1, n2)] else nf) []
  (st.verts, newFaces)

/-- The accumulation loop of `GeodesicCalculator.calculate` (source lines
17-34): build the icosahedron and, for each of its faces in order, subdivide
the face's three corner vertices, appending the local vertices to the global
vertex buffer and the local faces — offset by the vertex-buffer size before
the append — to the global face buffer. -/
def accPair (sqrt cos sin : K → K) (pi radius : K) (frequency : ℕ) :
    List (Pt K) × List Face :=
  let ico := createIcosahedron sqrt cos sin pi radius
  ico.2.foldl (fun acc face =>
    let v0 := ico.1.getD face.1 (0, 0, 0)
    let v1 := ico.1.getD face.2.1 (0, 0, 0)
    let v2 := ico.1.getD face.2.2 (0, 0, 0)
    let sub := subdivideTriangle sqrt radius v0 v1 v2 frequency
    let offset := acc.1.length
    (acc.1 ++ sub.1,
     acc.2 ++ sub.2.map (fun f => (f.1 + offset, f.2.1 + offset, f.2.2 + offset))))
    (([], []) : List (Pt K) × List Face)

/-- `GeodesicCalculator.calculate` (source lines 14-40): run the
accumulation loop over all base faces, then merge duplicate vertices.  The
final conversion to host `Point3D` objects (lines 39-40) belongs to the
excluded CAD layer and only repackages the coordinates.  The Python
`frequency` attribute is a non-negative integer here (`range` treats
negative bounds as empty; the claims only involve `frequency ≥ 0`). -/
def calculate (sqrt cos sin : K → K) (pi radius : K) (frequency : ℕ) :
    List (Pt K) × List Face :=
  let acc := accPair sqrt cos sin pi radius frequency
  mergeDuplicates acc.1 acc.2

/-! ### Specification-side definitions

`mergeVertsSpec`, `mergeIndexSpec`, `mergeFacesSpec` transcribe the merge
algorithm as the specification states it (claim C4); `gridFacesSpec`
transcribes the face-walk as the specification states it (claim C6).  The
remaining definitions (`sampleIJ`, `samplePts`, `globalSamples`, `wtm`, …)
are the combinatorial vocabulary used to state and prove the counting
claims. -/

/-- Spec wording of the merge vertex pass: walk the vertices, keeping the
first occurrence of each rounded key and dropping later occurrences.
`seen` is the list of keys already encountered. -/
def mergeVertsSpecAux (seen : List (Pt K)) : List (Pt K) → List (Pt K)
  | [] => []
  | p :: ps =>
    if roundKey p ∈ seen then mergeVertsSpecAux seen ps
    else p :: mergeVertsSpecAux (roundKey p :: seen) ps

/-- Spec wording: the merged vertex list keeps the first occurrence of every
key, in discovery order. -/
def mergeVertsSpec (verts : List (Pt K)) : List (Pt K) := mergeVertsSpecAux [] verts

/-- Spec wording: the merged index of a key is the position, in the merged
vertex list, of the vertex that carries that key (the index assigned when the
key was first seen). -/
def mergeIndexSpec (verts : List (Pt K)) (k : Pt K) : ℕ :=
  (mergeVertsSpec verts).findIdx (fun v => decide (roundKey v = k))

/-- Spec wording of the merge face pass: replace every face index by the
merged index of its vertex's key and discard any face whose three merged
indices are not pairwise distinct. -/
def mergeFacesSpec (verts : List (Pt K)) (faces : List Face) : List Face :=
  (faces.map (fun f =>
    (mergeIndexSpec verts (roundKey (verts.getD f.1 (0, 0, 0))),
     mergeIndexSpec verts (roundKey (verts.getD f.2.1 (0, 0, 0))),
     mergeIndexSpec verts (roundKey (verts.getD f.2.2 (0, 0, 0)))))).filter
    (fun nf => decide (nf.1 ≠ nf.2.1 ∧ nf.2.1 ≠ nf.2.2 ∧ nf.1 ≠ nf.2.2))

/-! ### The dictionary invariant of the deduplication loops -/

/-- The dictionary associated to a vertex list in which every rounded key
occurs once: key of the `n`-th vertex maps to `n`. -/
def vmapOfFrom (n : ℕ) : List (Pt K) → List (Pt K × ℕ)
  | [] => []
  | v :: vs => (roundKey v, n) :: vmapOfFrom (n + 1) vs

/-- The dictionary of a deduplicated vertex list. -/
def vmapOf (verts : List (Pt K)) : List (Pt K × ℕ) := vmapOfFrom 0 verts

/-- Invariant of the deduplication state: the dictionary is exactly the
key-to-position map of the vertex list built so far, and the keys of that
list are pairwise distinct. -/
def DWF (st : DState K) : Prop :=
  st.vmap = vmapOf st.verts ∧ (st.verts.map roundKey).Nodup

theorem vmapOfFrom_append (n : ℕ) (l1 l2 : List (Pt K)) :
    vmapOfFrom n (l1 ++ l2) = vmapOfFrom n l1 ++ vmapOfFrom (n + l1.length) l2 := by
  induction l1 generalizing n with
  | nil => simp [vmapOfFrom]
  | cons v vs ih =>
    simp only [List.cons_append, vmapOfFrom, List.length_cons, List.append_eq]
    rw [ih (n + 1), show n + 1 + vs.length = n + (vs.length + 1) by omega]

theorem alookup_vmapOfFrom_of_not_mem (n : ℕ) (l : List (Pt K)) (k : Pt K)
    (h : k ∉ l.map roundKey) : alookup (vmapOfFrom n l) k = none := by
  induction l generalizing n with
  | nil => simp [vmapOfFrom, alookup]
  | cons v vs ih =>
    simp only [List.map_cons, List.mem_cons, not_or] at h
    have h1 : ¬ roundKey v = k := fun hh => h.1 hh.symm
    simp [vmapOfFrom, alookup, h1, ih (n + 1) h.2]

theorem alookup_vmapOfFrom_findIdx (n : ℕ) (l : List (Pt K)) (k : Pt K)
    (h : k ∈ l.map roundKey) :
    alookup (vmapOfFrom n l) k = some (n + l.findIdx (fun v => decide (roundKey v = k))) := by
  induction l generalizing n with
  | nil => simp at h
  | cons v vs ih =>
    by_cases hv : roundKey v = k
    · simp [vmapOfFrom, alookup, hv, List.findIdx_cons]
    · have hv' : ¬ k = roundKey v := fun hh => hv hh.symm
      have hmem : k ∈ vs.map roundKey := by
        have h2 : k ∈ roundKey v :: vs.map roundKey := by
          simpa only [List.map_cons] using h
        rcases List.mem_cons.mp h2 with h1 | h1
        · exact absurd h1 hv'
        · exact h1
      simp only [vmapOfFrom, alookup, if_neg hv, ih (n + 1) hmem, List.findIdx_cons,
        decide_eq_false hv, cond_false, Option.some.injEq]
      omega

theorem alookup_vmapOf_of_not_mem (l : List (Pt K)) (k : Pt K)
    (h : k ∉ l.map roundKey) : alookup (vmapOf l) k = none :=
  alookup_vmapOfFrom_of_not_mem 0 l k h

theorem alookup_vmapOf_findIdx (l : List (Pt K)) (k : Pt K) (h : k ∈ l.map roundKey) :
    alookup (vmapOf l) k = some (l.findIdx (fun v => decide (roundKey v = k))) := by
  simpa using alookup_vmapOfFrom_findIdx 0 l k h

theorem alookup_vmapOfFrom_self (l : List (Pt K)) (hnd : (l.map roundKey).Nodup)
    (n i : ℕ) (hi : i < l.length) :
    alookup (vmapOfFrom n l) (roundKey (l.get ⟨i, hi⟩)) = some (n + i) := by
  induction l generalizing n i with
  | nil => simp at hi
  | cons v vs ih =>
    simp only [List.map_cons, List.nodup_cons] at hnd
    cases i with
    | zero => simp [vmapOfFrom, alookup]
    | succ i =>
      have hi' : i < vs.length := by simpa using hi
      have hne : roundKey v ≠ roundKey (vs.get ⟨i, hi'⟩) := by
        intro h
        exact hnd.1 (h ▸ List.mem_map_of_mem _ (vs.get_mem _ _))
      simp only [List.get_cons_succ, vmapOfFrom, alookup, if_neg hne, ih hnd.2 (n + 1) i hi']
      congr 1
      omega

/-- Looking up the key of the `i`-th vertex of a list with pairwise distinct
keys returns `i`. -/
theorem alookup_vmapOf_self (l : List (Pt K)) (hnd : (l.map roundKey).Nodup)
    (i : ℕ) (hi : i < l.length) :
    alookup (vmapOf l) (roundKey (l.getD i (0, 0, 0))) = some i := by
  have h := alookup_vmapOfFrom_self l hnd 0 i hi
  rw [List.getD_eq_getElem l _ hi]
  simpa using h

/-! ### Characterisation of the deduplication loops -/

theorem dstep_of_new (st : DState K) (pt : Pt K) (hwf : DWF st)
    (hnew : roundKey pt ∉ st.verts.map roundKey) :
    dstep st pt =
      (⟨st.verts ++ [pt], st.vmap ++ [(roundKey pt, st.verts.length)]⟩, st.verts.length) := by
  simp only [dstep]
  rw [hwf.1, alookup_vmapOf_of_not_mem _ _ hnew]

theorem dstep_of_seen (st : DState K) (pt : Pt K) (hwf : DWF st)
    (hseen : roundKey pt ∈ st.verts.map roundKey) :
    dstep st pt =
      (st, st.verts.findIdx (fun v => decide (roundKey v = roundKey pt))) := by
  simp only [dstep]
  rw [hwf.1, alookup_vmapOf_findIdx _ _ hseen]

theorem DWF_append_new (st : DState K) (pt : Pt K) (hwf : DWF st)
    (hnew : roundKey pt ∉ st.verts.map roundKey) :
    DWF (⟨st.verts ++ [pt], st.vmap ++ [(roundKey pt, st.verts.length)]⟩ : DState K) := by
  constructor
  · show st.vmap ++ [(roundKey pt, st.verts.length)] = vmapOf (st.verts ++ [pt])
    rw [hwf.1]
    unfold vmapOf
    rw [vmapOfFrom_append]
    simp [vmapOfFrom]
  · show ((st.verts ++ [pt]).map roundKey).Nodup
    rw [List.map_append]
    refine List.Nodup.append hwf.2 (by simp) ?_
    intro a ha hb
    simp only [List.map_cons, List.map_nil, List.mem_singleton] at hb
    exact hnew (hb ▸ ha)

/-- Running the loop over points whose keys are pairwise distinct and all
new extends the vertex list by exactly these points and hands out the
consecutive indices. -/
theorem drun_of_nodup (pts : List (Pt K)) (st : DState K) (hwf : DWF st)
    (hnd : (pts.map roundKey).Nodup)
    (hnew : ∀ k ∈ pts.map roundKey, k ∉ st.verts.map roundKey) :
    drun st pts = (⟨st.verts ++ pts, vmapOf (st.verts ++ pts)⟩,
      List.range' st.verts.length pts.length) := by
  induction pts generalizing st with
  | nil =>
    obtain ⟨verts, vmap⟩ := st
    have h1 : vmap = vmapOf verts := hwf.1
    simp [drun, h1]
  | cons p ps ih =>
    have hpnew : roundKey p ∉ st.verts.map roundKey :=
      hnew _ (by simp)
    have hwf' := DWF_append_new st p hwf hpnew
    simp only [List.map_cons, List.nodup_cons] at hnd
    have hnew' : ∀ k ∈ ps.map roundKey, k ∉ (st.verts ++ [p]).map roundKey := by
      intro k hk
      simp only [List.map_append, List.map_cons, List.map_nil, List.mem_append,
        List.mem_singleton, not_or]
      exact ⟨hnew k (by simp [hk]), fun he => hnd.1 (he ▸ hk)⟩
    show (let s1 := dstep st p; let s2 := drun s1.1 ps; (s2.1, s1.2 :: s2.2)) = _
    rw [dstep_of_new st p hwf hpnew]
    simp only
    rw [ih _ hwf' hnd.2 hnew']
    have h1 : (st.verts ++ [p]) ++ ps = st.verts ++ p :: ps := by simp
    have h2 : (st.verts ++ [p]).length = st.verts.length + 1 := by simp
    rw [h1, h2, show (p :: ps).length = ps.length + 1 from rfl, List.range'_succ]

/-- The seen-keys accumulator of `mergeVertsSpecAux` only matters up to
membership. -/
theorem mergeVertsSpecAux_congr (seen1 seen2 : List (Pt K))
    (h : ∀ k, k ∈ seen1 ↔ k ∈ seen2) (pts : List (Pt K)) :
    mergeVertsSpecAux seen1 pts = mergeVertsSpecAux seen2 pts := by
  induction pts generalizing seen1 seen2 with
  | nil => rfl
  | cons p ps ih =>
    by_cases hp : roundKey p ∈ seen1
    · rw [mergeVertsSpecAux, if_pos hp, mergeVertsSpecAux, if_pos ((h _).mp hp)]
      exact ih seen1 seen2 h
    · rw [mergeVertsSpecAux, if_neg hp, mergeVertsSpecAux, if_neg (fun hq => hp ((h _).mpr hq))]
      exact congrArg _ (ih _ _ (by intro k; simp [h k]))

/-- Folding the deduplication step over arbitrary points: the vertex list is
extended by the first occurrence of every new key, in order (this is the
specification's description of the merge vertex pass). -/
theorem foldl_dstep_eq_spec (pts : List (Pt K)) (st : DState K) (hwf : DWF st) :
    pts.foldl (fun st v => (dstep st v).1) st =
      ⟨st.verts ++ mergeVertsSpecAux (st.verts.map roundKey) pts,
       vmapOf (st.verts ++ mergeVertsSpecAux (st.verts.map roundKey) pts)⟩ ∧
    DWF (pts.foldl (fun st v => (dstep st v).1) st) := by
  induction pts generalizing st with
  | nil =>
    obtain ⟨verts, vmap⟩ := st
    have h1 : vmap = vmapOf verts := hwf.1
    refine ⟨?_, hwf⟩
    simp [mergeVertsSpecAux, h1]
  | cons p ps ih =>
    by_cases hseen : roundKey p ∈ st.verts.map roundKey
    · have hstep : (dstep st p).1 = st := by rw [dstep_of_seen st p hwf hseen]
      simp only [List.foldl_cons, hstep, mergeVertsSpecAux, if_pos hseen]
      exact ih st hwf
    · have hstep := dstep_of_new st p hwf hseen
      have hwf' := DWF_append_new st p hwf hseen
      simp only [List.foldl_cons, hstep, mergeVertsSpecAux, if_neg hseen]
      have h := ih _ hwf'
      simp only at h
      rw [show ((st.verts ++ [p]).map roundKey) = st.verts.map roundKey ++ [roundKey p]
            by simp] at h
      rw [mergeVertsSpecAux_congr (st.verts.map roundKey ++ [roundKey p])
            (roundKey p :: st.verts.map roundKey) (by intro k; simp [or_comm]) ps] at h
      simpa [List.append_assoc] using h

theorem DWF_empty : DWF (⟨[], []⟩ : DState K) := ⟨rfl, List.nodup_nil⟩

theorem alookup_vmapOfFrom_lt (n : ℕ) (l : List (Pt K)) (k : Pt K) (i : ℕ)
    (h : alookup (vmapOfFrom n l) k = some i) : i < n + l.length := by
  induction l generalizing n with
  | nil => simp [vmapOfFrom, alookup] at h
  | cons v vs ih =>
    simp only [vmapOfFrom, alookup] at h
    by_cases hv : roundKey v = k
    · rw [if_pos hv] at h
      cases h
      simp
    · rw [if_neg hv] at h
      have := ih (n + 1) h
      simp only [List.length_cons]
      omega

theorem mergeVertsSpecAux_subset (seen pts : List (Pt K)) :
    ∀ v ∈ mergeVertsSpecAux seen pts, v ∈ pts := by
  induction pts generalizing seen with
  | nil => simp [mergeVertsSpecAux]
  | cons p ps ih =>
    intro v hv
    by_cases hp : roundKey p ∈ seen
    · rw [mergeVertsSpecAux, if_pos hp] at hv
      exact List.mem_cons_of_mem _ (ih seen v hv)
    · rw [mergeVertsSpecAux, if_neg hp] at hv
      rcases List.mem_cons.mp hv with h | h
      · exact h ▸ List.mem_cons_self _ _
      · exact List.mem_cons_of_mem _ (ih _ v h)

theorem mergeVertsSpecAux_key_mem (pts : List (Pt K)) :
    ∀ (seen : List (Pt K)) (k : Pt K), k ∉ seen →
      (k ∈ pts.map roundKey ↔ k ∈ (mergeVertsSpecAux seen pts).map roundKey) := by
  induction pts with
  | nil => simp [mergeVertsSpecAux]
  | cons p ps ih =>
    intro seen k hk
    by_cases hp : roundKey p ∈ seen
    · rw [mergeVertsSpecAux, if_pos hp]
      simp only [List.map_cons, List.mem_cons]
      constructor
      · rintro (he | he)
        · exact absurd (he ▸ hp) hk
        · exact (ih seen k hk).mp he
      · intro he
        exact Or.inr ((ih seen k hk).mpr he)
    · rw [mergeVertsSpecAux, if_neg hp]
      by_cases he : k = roundKey p
      · simp [he]
      · simp only [List.map_cons, List.mem_cons, he, false_or]
        have hk' : k ∉ roundKey p :: seen := by
          simp only [List.mem_cons, not_or]
          exact ⟨he, hk⟩
        exact ih _ k hk'

/-- On a list whose keys are pairwise distinct and disjoint from `seen`, the
spec dedup pass keeps everything. -/
theorem mergeVertsSpecAux_of_nodup (pts : List (Pt K)) :
    ∀ seen : List (Pt K), (pts.map roundKey).Nodup →
      (∀ k ∈ pts.map roundKey, k ∉ seen) → mergeVertsSpecAux seen pts = pts := by
  induction pts with
  | nil => intro seen _ _; rfl
  | cons p ps ih =>
    intro seen hnd hdisj
    have hp : roundKey p ∉ seen := hdisj _ (by simp)
    simp only [List.map_cons, List.nodup_cons] at hnd
    rw [mergeVertsSpecAux, if_neg hp]
    congr 1
    refine ih _ hnd.2 ?_
    intro k hk
    simp only [List.mem_cons, not_or]
    exact ⟨fun he => hnd.1 (he ▸ hk), hdisj _ (by simp [hk])⟩

theorem foldl_append_eq_flatMap {α β : Type} (l : List β) (h : β → List α)
    (step : List α → β → List α) (hstep : ∀ acc b, step acc b = acc ++ h b) :
    ∀ init, l.foldl step init = init ++ l.flatMap h := by
  induction l with
  | nil => simp
  | cons b bs ih =>
    intro init
    rw [List.foldl_cons, hstep, ih, List.flatMap_cons, List.append_assoc]

theorem flatMap_id_of {α : Type} (l : List α) (h : α → List α)
    (hl : ∀ b ∈ l, h b = [b]) : l.flatMap h = l := by
  induction l with
  | nil => rfl
  | cons b bs ih =>
    rw [List.flatMap_cons, hl b (by simp), ih (fun b hb => hl b (by simp [hb]))]
    rfl

/-- The vertex pass of `mergeDuplicates` computes exactly the
specification's merged vertex list, and its dictionary is the key-to-position
map of that list. -/
theorem mergeDuplicates_state (verts : List (Pt K)) :
    verts.foldl (fun st v => (dstep st v).1) (⟨[], []⟩ : DState K) =
      ⟨mergeVertsSpec verts, vmapOf (mergeVertsSpec verts)⟩ ∧
    ((mergeVertsSpec verts).map roundKey).Nodup := by
  have h := foldl_dstep_eq_spec verts (⟨[], []⟩ : DState K) DWF_empty
  simp only [List.map_nil, List.nil_append] at h
  refine ⟨h.1, ?_⟩
  have h2 := h.2
  rw [h.1] at h2
  exact h2.2

theorem ite_append_singleton {α : Type} (c : Prop) [Decidable c] (acc : List α) (x : α) :
    (if c then acc ++ [x] else acc) = acc ++ (if c then [x] else []) := by
  by_cases hc : c <;> simp [hc]

/-- The face pass of `mergeDuplicates`, written as a `flatMap`. -/
theorem mergeDuplicates_snd_eq_flatMap (verts : List (Pt K)) (faces : List Face) :
    (mergeDuplicates verts faces).2 = faces.flatMap (fun face =>
      let k0 := roundKey (verts.getD face.1 (0, 0, 0))
      let k1 := roundKey (verts.getD face.2.1 (0, 0, 0))
      let k2 := roundKey (verts.getD face.2.2 (0, 0, 0))
      let n0 := (alookup (vmapOf (mergeVertsSpec verts)) k0).getD 0
      let n1 := (alookup (vmapOf (mergeVertsSpec verts)) k1).getD 0
      let n2 := (alookup (vmapOf (mergeVertsSpec verts)) k2).getD 0
      if n0 ≠ n1 ∧ n1 ≠ n2 ∧ n0 ≠ n2 then [(n0, n1, n2)] else []) := by
  simp only [mergeDuplicates]
  rw [(mergeDuplicates_state verts).1]
  refine foldl_append_eq_flatMap faces _ _ ?_ []
  intro acc face
  exact ite_append_singleton _ acc _

theorem mergeDuplicates_fst (verts : List (Pt K)) (faces : List Face) :
    (mergeDuplicates verts faces).1 = mergeVertsSpec verts := by
  simp only [mergeDuplicates]
  rw [(mergeDuplicates_state verts).1]

theorem alookup_merged_eq_spec (verts : List (Pt K)) (i : ℕ) (hi : i < verts.length) :
    (alookup (vmapOf (mergeVertsSpec verts)) (roundKey (verts.getD i (0, 0, 0)))).getD 0 =
      mergeIndexSpec verts (roundKey (verts.getD i (0, 0, 0))) := by
  have hmem : roundKey (verts.getD i (0, 0, 0)) ∈ verts.map roundKey := by
    rw [List.getD_eq_getElem verts _ hi]
    exact List.mem_map_of_mem _ (verts.getElem_mem hi)
  have hmem' := (mergeVertsSpecAux_key_mem verts [] _ (by simp)).mp hmem
  unfold mergeIndexSpec mergeVertsSpec
  rw [alookup_vmapOf_findIdx _ _ hmem']
  rfl

/-- The face pass of `mergeDuplicates` computes exactly the specification's
remap-and-filter pass, for faces whose indices are in bounds. -/
theorem mergeDuplicates_snd_eq_spec (verts : List (Pt K)) (faces : List Face)
    (hb : ∀ f ∈ faces, f.1 < verts.length ∧ f.2.1 < verts.length ∧ f.2.2 < verts.length) :
    (mergeDuplicates verts faces).2 = mergeFacesSpec verts faces := by
  rw [mergeDuplicates_snd_eq_flatMap]
  unfold mergeFacesSpec
  induction faces with
  | nil => rfl
  | cons f fs ih =>
    have hf := hb f (by simp)
    have hb' : ∀ g ∈ fs, g.1 < verts.length ∧ g.2.1 < verts.length ∧ g.2.2 < verts.length :=
      fun g hg => hb g (by simp [hg])
    rw [List.flatMap_cons, List.map_cons, List.filter_cons, ih hb']
    simp only [alookup_merged_eq_spec verts f.1 hf.1,
      alookup_merged_eq_spec verts f.2.1 hf.2.1,
      alookup_merged_eq_spec verts f.2.2 hf.2.2]
    by_cases hc : mergeIndexSpec verts (roundKey (verts.getD f.1 (0, 0, 0))) ≠
        mergeIndexSpec verts (roundKey (verts.getD f.2.1 (0, 0, 0))) ∧
        mergeIndexSpec verts (roundKey (verts.getD f.2.1 (0, 0, 0))) ≠
        mergeIndexSpec verts (roundKey (verts.getD f.2.2 (0, 0, 0))) ∧
        mergeIndexSpec verts (roundKey (verts.getD f.1 (0, 0, 0))) ≠
        mergeIndexSpec verts (roundKey (verts.getD f.2.2 (0, 0, 0)))
    · rw [if_pos hc, if_pos (by simpa using hc)]
      rfl
    · rw [if_neg hc, if_neg (by simpa using hc)]
      simp

/-- `mergeDuplicates` coincides with the specification's description of the
merge, for in-bounds faces. -/
theorem mergeDuplicates_eq_spec (verts : List (Pt K)) (faces : List Face)
    (hb : ∀ f ∈ faces, f.1 < verts.length ∧ f.2.1 < verts.length ∧ f.2.2 < verts.length) :
    mergeDuplicates verts faces = (mergeVertsSpec verts, mergeFacesSpec verts faces) := by
  have h1 := mergeDuplicates_fst verts faces
  have h2 := mergeDuplicates_snd_eq_spec verts faces hb
  calc mergeDuplicates verts faces
      = ((mergeDuplicates verts faces).1, (mergeDuplicates verts faces).2) := rfl
    _ = (mergeVertsSpec verts, mergeFacesSpec verts faces) := by rw [h1, h2]

/-- Every face kept by the merge has pairwise distinct indices, all within
bounds of the merged vertex list (no in-bounds hypothesis needed: an
out-of-range lookup remaps to index 0, and the degeneracy filter removes the
all-zero face whenever the merged list is empty). -/
theorem mergeDuplicates_mem_faces (verts : List (Pt K)) (faces : List Face) (g : Face)
    (hg : g ∈ (mergeDuplicates verts faces).2) :
    (g.1 ≠ g.2.1 ∧ g.2.1 ≠ g.2.2 ∧ g.1 ≠ g.2.2) ∧
    g.1 < (mergeDuplicates verts faces).1.length ∧
    g.2.1 < (mergeDuplicates verts faces).1.length ∧
    g.2.2 < (mergeDuplicates verts faces).1.length := by
  rw [mergeDuplicates_snd_eq_flatMap] at hg
  rw [mergeDuplicates_fst]
  rcases List.mem_flatMap.mp hg with ⟨face, _, hmem⟩
  simp only at hmem
  by_cases hc : (alookup (vmapOf (mergeVertsSpec verts))
        (roundKey (verts.getD face.1 (0, 0, 0)))).getD 0 ≠
      (alookup (vmapOf (mergeVertsSpec verts))
        (roundKey (verts.getD face.2.1 (0, 0, 0)))).getD 0 ∧
      (alookup (vmapOf (mergeVertsSpec verts))
        (roundKey (verts.getD face.2.1 (0, 0, 0)))).getD 0 ≠
      (alookup (vmapOf (mergeVertsSpec verts))
        (roundKey (verts.getD face.2.2 (0, 0, 0)))).getD 0 ∧
      (alookup (vmapOf (mergeVertsSpec verts))
        (roundKey (verts.getD face.1 (0, 0, 0)))).getD 0 ≠
      (alookup (vmapOf (mergeVertsSpec verts))
        (roundKey (verts.getD face.2.2 (0, 0, 0)))).getD 0
  · rw [if_pos hc, List.mem_singleton] at hmem
    subst hmem
    have hlen : 0 < (mergeVertsSpec verts).length := by
      rcases Nat.eq_zero_or_pos (mergeVertsSpec verts).length with h0 | h0
      · exfalso
        have hempty : mergeVertsSpec verts = [] := List.length_eq_zero.mp h0
        have hnone : ∀ k : Pt K, alookup (vmapOf (mergeVertsSpec verts)) k = none := by
          intro k
          rw [hempty]
          rfl
        rw [hnone, hnone, hnone] at hc
        exact hc.1 rfl
      · exact h0
    have hbound : ∀ k : Pt K,
        (alookup (vmapOf (mergeVertsSpec verts)) k).getD 0 < (mergeVertsSpec verts).length := by
      intro k
      cases hl : alookup (vmapOf (mergeVertsSpec verts)) k with
      | none => simpa using hlen
      | some i =>
        have := alookup_vmapOfFrom_lt 0 (mergeVertsSpec verts) k i hl
        simpa using this
    exact ⟨hc, hbound _, hbound _, hbound _⟩
  · rw [if_neg hc] at hmem
    simp at hmem

/-- Merging an already-merged mesh changes nothing. -/
theorem mergeDuplicates_idem (verts : List (Pt K)) (faces : List Face) :
    mergeDuplicates (mergeDuplicates verts faces).1 (mergeDuplicates verts faces).2 =
      mergeDuplicates verts faces := by
  have hnd : ((mergeDuplicates verts faces).1.map roundKey).Nodup := by
    rw [mergeDuplicates_fst]
    exact (mergeDuplicates_state verts).2
  have hv : mergeVertsSpec (mergeDuplicates verts faces).1 = (mergeDuplicates verts faces).1 :=
    mergeVertsSpecAux_of_nodup _ [] hnd (by simp)
  have h1 : (mergeDuplicates (mergeDuplicates verts faces).1 (mergeDuplicates verts faces).2).1 =
      (mergeDuplicates verts faces).1 := by
    rw [mergeDuplicates_fst, hv]
  have h2 : (mergeDuplicates (mergeDuplicates verts faces).1 (mergeDuplicates verts faces).2).2 =
      (mergeDuplicates verts faces).2 := by
    rw [mergeDuplicates_snd_eq_flatMap, hv]
    apply flatMap_id_of
    intro g hg
    obtain ⟨hdist, hb0, hb1, hb2⟩ := mergeDuplicates_mem_faces verts faces g hg
    simp only [alookup_vmapOf_self _ hnd g.1 hb0, alookup_vmapOf_self _ hnd g.2.1 hb1,
      alookup_vmapOf_self _ hnd g.2.2 hb2, Option.getD_some]
    rw [if_pos hdist]
  calc mergeDuplicates (mergeDuplicates verts faces).1 (mergeDuplicates verts faces).2
      = ((mergeDuplicates (mergeDuplicates verts faces).1 (mergeDuplicates verts faces).2).1,
         (mergeDuplicates (mergeDuplicates verts faces).1 (mergeDuplicates verts faces).2).2) :=
        rfl
    _ = mergeDuplicates verts faces := by rw [h1, h2]

/-! ### The face walk (claim C6) -/

/-- Spec wording of the face emission (claim C6): for each row `i` in
`[0, freq-1]` and column `j` in `[0, freq-i-1]` emit the upward triangle
`(grid(i,j), grid(i+1,j), grid(i,j+1))`, plus the downward triangle
`(grid(i+1,j), grid(i+1,j+1), grid(i,j+1))` whenever `j < freq-i-1`. -/
def gridFacesSpec (grid : List (List ℕ)) (freq : ℕ) : List Face :=
  (List.range freq).flatMap (fun i =>
    (List.range (freq - i)).flatMap (fun j =>
      ((grid.getD i []).getD j 0, (grid.getD (i + 1) []).getD j 0,
        (grid.getD i []).getD (j + 1) 0) ::
      (if j < freq - i - 1 then
        [((grid.getD (i + 1) []).getD j 0, (grid.getD (i + 1) []).getD (j + 1) 0,
          (grid.getD i []).getD (j + 1) 0)]
       else [])))

theorem gridFaces_eq_spec (grid : List (List ℕ)) (freq : ℕ) :
    gridFaces grid freq = gridFacesSpec grid freq := by
  have hinner : ∀ i (init : List Face),
      (List.range (freq - i)).foldl (fun faces j =>
        let vA := (grid.getD i []).getD j 0
        let vB := (grid.getD (i + 1) []).getD j 0
        let vC := (grid.getD i []).getD (j + 1) 0
        let faces := faces ++ [(vA, vB, vC)]
        if j < freq - i - 1 then
          let vD := (grid.getD (i + 1) []).getD (j + 1) 0
          faces ++ [(vB, vD, vC)]
        else faces) init =
      init ++ (List.range (freq - i)).flatMap (fun j =>
        ((grid.getD i []).getD j 0, (grid.getD (i + 1) []).getD j 0,
          (grid.getD i []).getD (j + 1) 0) ::
        (if j < freq - i - 1 then
          [((grid.getD (i + 1) []).getD j 0, (grid.getD (i + 1) []).getD (j + 1) 0,
            (grid.getD i []).getD (j + 1) 0)]
         else [])) := by
    intro i init
    refine foldl_append_eq_flatMap _ _ _ ?_ init
    intro acc j
    by_cases hc : j < freq - i - 1 <;> simp [hc]
  unfold gridFaces gridFacesSpec
  exact (foldl_append_eq_flatMap _ _ _ (fun acc i => hinner i acc) []).trans
    (List.nil_append _)

theorem sum_map_list_range (n : ℕ) (g : ℕ → ℕ) :
    ((List.range n).map g).sum = ∑ i in Finset.range n, g i := by
  induction n with
  | zero => simp
  | succ n ih =>
    rw [List.range_succ, List.map_append, List.sum_append, Finset.sum_range_succ, ih]
    simp

theorem sum_one_add_lt (m : ℕ) :
    (∑ j in Finset.range m, (1 + if j < m - 1 then 1 else 0)) = 2 * m - 1 := by
  rw [Finset.sum_add_distrib, Finset.sum_const, smul_eq_mul, mul_one]
  have h1 : (∑ j in Finset.range m, if j < m - 1 then (1 : ℕ) else 0) = m - 1 := by
    have h2 : ∀ j ∈ Finset.range m,
        (if j < m - 1 then (1 : ℕ) else 0) = if j ∈ Finset.range (m - 1) then 1 else 0 := by
      intro j _
      simp [Finset.mem_range]
    rw [Finset.sum_congr rfl h2, Finset.sum_ite_mem]
    have h3 : Finset.range m ∩ Finset.range (m - 1) = Finset.range (m - 1) := by
      ext x
      simp only [Finset.mem_inter, Finset.mem_range]
      omega
    rw [h3, Finset.sum_const, smul_eq_mul, mul_one, Finset.card_range]
  rw [h1, Finset.card_range]
  omega

theorem sum_odd_eq_sq (f : ℕ) : (∑ i in Finset.range f, (2 * i + 1)) = f ^ 2 := by
  induction f with
  | zero => simp
  | succ f ih =>
    rw [Finset.sum_range_succ, ih]
    ring

/-- The face walk always emits exactly `freq ^ 2` faces, whatever the grid
contents. -/
theorem length_gridFaces (grid : List (List ℕ)) (freq : ℕ) :
    (gridFaces grid freq).length = freq ^ 2 := by
  rw [gridFaces_eq_spec]
  unfold gridFacesSpec
  rw [List.length_flatMap, sum_map_list_range]
  have h1 : ∀ i ∈ Finset.range freq,
      ((List.range (freq - i)).flatMap (fun j =>
        ((grid.getD i []).getD j 0, (grid.getD (i + 1) []).getD j 0,
          (grid.getD i []).getD (j + 1) 0) ::
        (if j < freq - i - 1 then
          [((grid.getD (i + 1) []).getD j 0, (grid.getD (i + 1) []).getD (j + 1) 0,
            (grid.getD i []).getD (j + 1) 0)]
         else []))).length = 2 * (freq - i) - 1 := by
    intro i _
    rw [List.length_flatMap, sum_map_list_range]
    have h2 : ∀ j ∈ Finset.range (freq - i),
        (List.length ∘ fun j =>
          ((grid.getD i []).getD j 0, (grid.getD (i + 1) []).getD j 0,
            (grid.getD i []).getD (j + 1) 0) ::
          (if j < freq - i - 1 then
            [((grid.getD (i + 1) []).getD j 0, (grid.getD (i + 1) []).getD (j + 1) 0,
              (grid.getD i []).getD (j + 1) 0)]
           else [])) j = 1 + if j < freq - i - 1 then 1 else 0 := by
      intro j _
      by_cases hc : j < freq - i - 1 <;> simp [hc]
    rw [Finset.sum_congr rfl h2, sum_one_add_lt]
  rw [show (List.length ∘ fun i => (List.range (freq - i)).flatMap (fun j =>
        ((grid.getD i []).getD j 0, (grid.getD (i + 1) []).getD j 0,
          (grid.getD i []).getD (j + 1) 0) ::
        (if j < freq - i - 1 then
          [((grid.getD (i + 1) []).getD j 0, (grid.getD (i + 1) []).getD (j + 1) 0,
            (grid.getD i []).getD (j + 1) 0)]
         else []))) = fun i => ((List.range (freq - i)).flatMap (fun j =>
        ((grid.getD i []).getD j 0, (grid.getD (i + 1) []).getD j 0,
          (grid.getD i []).getD (j + 1) 0) ::
        (if j < freq - i - 1 then
          [((grid.getD (i + 1) []).getD j 0, (grid.getD (i + 1) []).getD (j + 1) 0,
            (grid.getD i []).getD (j + 1) 0)]
         else []))).length from rfl]
  rw [Finset.sum_congr rfl h1]
  rw [← Finset.sum_range_reflect (fun i => 2 * (freq - i) - 1) freq]
  have h4 : ∀ i ∈ Finset.range freq, 2 * (freq - (freq - 1 - i)) - 1 = 2 * i + 1 := by
    intro i hi
    simp only [Finset.mem_range] at hi
    omega
  rw [Finset.sum_congr rfl h4, sum_odd_eq_sq]

/-! ### Characterisation of `subdivideTriangle` -/

/-- The row-major enumeration of the barycentric grid indices: row `i` in
`[0, freq]`, column `j` in `[0, freq - i]`. -/
def sampleIJ (f : ℕ) : List (ℕ × ℕ) :=
  (List.range (f + 1)).flatMap (fun i => (List.range (f + 1 - i)).map (fun j => (i, j)))

/-- The projected barycentric samples of one triangle, in row-major order. -/
def samplePts (sqrt : K → K) (radius : K) (v0 v1 v2 : Pt K) (f : ℕ) : List (Pt K) :=
  (sampleIJ f).map (fun ij => normalizeAndScale sqrt radius (baryPoint v0 v1 v2 f ij.1 ij.2))

/-- Consecutive index blocks: one block of length `m` per row length `m`,
starting at `n`. -/
def gridIdx (n : ℕ) : List ℕ → List (List ℕ)
  | [] => []
  | m :: ms => List.range' n m :: gridIdx (n + m) ms

/-- The index grid produced by `_subdivide_triangle` when no key collision
occurs: row `i` holds the consecutive local indices of the row's samples. -/
def gridOf (f : ℕ) : List (List ℕ) :=
  gridIdx 0 ((List.range (f + 1)).map (fun i => f + 1 - i))

/-- Local index of the first sample of row `i`. -/
def rowStart (f i : ℕ) : ℕ := ((List.range i).map (fun r => f + 1 - r)).sum

theorem gridIdx_getD (lens : List ℕ) : ∀ (n i : ℕ), i < lens.length →
    (gridIdx n lens).getD i [] = List.range' (n + (lens.take i).sum) (lens.getD i 0) := by
  induction lens with
  | nil => intro n i hi; simp at hi
  | cons m ms ih =>
    intro n i hi
    cases i with
    | zero => simp [gridIdx]
    | succ i =>
      have hi' : i < ms.length := by simpa using hi
      show (gridIdx (n + m) ms).getD i [] = _
      rw [ih (n + m) i hi']
      simp only [List.take_succ_cons, List.sum_cons, List.getD_cons_succ]
      congr 1
      omega

theorem subdivide_fold (is : List ℕ) (rows : ℕ → List (Pt K)) :
    ∀ (st : DState K) (g : List (List ℕ)), DWF st →
    ((is.flatMap rows).map roundKey).Nodup →
    (∀ k ∈ (is.flatMap rows).map roundKey, k ∉ st.verts.map roundKey) →
    is.foldl (fun acc i =>
        let r := drun acc.1 (rows i)
        (r.1, acc.2 ++ [r.2])) (st, g) =
      (⟨st.verts ++ is.flatMap rows, vmapOf (st.verts ++ is.flatMap rows)⟩,
       g ++ gridIdx st.verts.length (is.map (fun i => (rows i).length))) := by
  induction is with
  | nil =>
    intro st g hwf _ _
    obtain ⟨verts, vmap⟩ := st
    have h1 : vmap = vmapOf verts := hwf.1
    simp [gridIdx, h1]
  | cons i is' ih =>
    intro st g hwf hnd hdisj
    rw [List.flatMap_cons] at hnd hdisj
    have hndrow : ((rows i).map roundKey).Nodup := by
      rw [List.map_append] at hnd
      exact hnd.of_append_left
    have hndrest : ((is'.flatMap rows).map roundKey).Nodup := by
      rw [List.map_append] at hnd
      exact hnd.of_append_right
    have hdisjrow : ∀ k ∈ (rows i).map roundKey, k ∉ st.verts.map roundKey := by
      intro k hk
      exact hdisj k (by rw [List.map_append]; exact List.mem_append_left _ hk)
    have hcross : ∀ k ∈ (is'.flatMap rows).map roundKey, k ∉ (rows i).map roundKey := by
      rw [List.map_append] at hnd
      intro k hk hk'
      exact (List.disjoint_of_nodup_append hnd) hk' hk
    rw [List.foldl_cons]
    have hdrun := drun_of_nodup (rows i) st hwf hndrow hdisjrow
    simp only [hdrun]
    have hwf' : DWF (⟨st.verts ++ rows i, vmapOf (st.verts ++ rows i)⟩ : DState K) := by
      refine ⟨rfl, ?_⟩
      show ((st.verts ++ rows i).map roundKey).Nodup
      rw [List.map_append]
      refine List.Nodup.append hwf.2 hndrow ?_
      intro a ha hb
      exact hdisjrow a hb ha
    have hdisj' : ∀ k ∈ (is'.flatMap rows).map roundKey,
        k ∉ (⟨st.verts ++ rows i, vmapOf (st.verts ++ rows i)⟩ : DState K).verts.map roundKey := by
      intro k hk
      show k ∉ (st.verts ++ rows i).map roundKey
      rw [List.map_append]
      simp only [List.mem_append, not_or]
      refine ⟨hdisj k ?_, hcross k hk⟩
      rw [List.map_append]
      exact List.mem_append_right _ hk
    rw [ih _ _ hwf' hndrest hdisj']
    simp [gridIdx, List.flatMap_cons, List.append_assoc]

/-- When all sample keys are pairwise distinct, `_subdivide_triangle` keeps
one vertex per grid sample in row-major order, the grid holds the
consecutive local indices, and the faces are the grid walk. -/
theorem subdivideTriangle_of_nodup (sqrt : K → K) (radius : K) (v0 v1 v2 : Pt K) (f : ℕ)
    (hnd : ((samplePts sqrt radius v0 v1 v2 f).map roundKey).Nodup) :
    subdivideTriangle sqrt radius v0 v1 v2 f =
      (samplePts sqrt radius v0 v1 v2 f, gridFaces (gridOf f) f) := by
  have hflat : (List.range (f + 1)).flatMap (fun i => (List.range (f + 1 - i)).map
      (fun j => normalizeAndScale sqrt radius (baryPoint v0 v1 v2 f i j))) =
      samplePts sqrt radius v0 v1 v2 f := by
    unfold samplePts sampleIJ
    rw [List.map_flatMap]
    refine List.flatMap_congr ?_
    intro i _
    rw [List.map_map]
    rfl
  have h := subdivide_fold (List.range (f + 1))
    (fun i => (List.range (f + 1 - i)).map
      (fun j => normalizeAndScale sqrt radius (baryPoint v0 v1 v2 f i j)))
    ⟨[], []⟩ [] DWF_empty (by rw [hflat]; exact hnd) (by simp)
  rw [hflat] at h
  have hgoal : subdivideTriangle sqrt radius v0 v1 v2 f =
      (((List.range (f + 1)).foldl (fun acc i =>
          let r := drun acc.1 ((fun i => (List.range (f + 1 - i)).map
            (fun j => normalizeAndScale sqrt radius (baryPoint v0 v1 v2 f i j))) i)
          (r.1, acc.2 ++ [r.2])) (⟨⟨[], []⟩, []⟩ : DState K × List (List ℕ))).1.verts,
       gridFaces (((List.range (f + 1)).foldl (fun acc i =>
          let r := drun acc.1 ((fun i => (List.range (f + 1 - i)).map
            (fun j => normalizeAndScale sqrt radius (baryPoint v0 v1 v2 f i j))) i)
          (r.1, acc.2 ++ [r.2])) (⟨⟨[], []⟩, []⟩ : DState K × List (List ℕ))).2) f) := rfl
  rw [hgoal, h]
  simp only [List.nil_append, List.length_nil]
  have hlens : ((List.range (f + 1)).map (fun i => ((fun i => (List.range (f + 1 - i)).map
      (fun j => normalizeAndScale sqrt radius (baryPoint v0 v1 v2 f i j))) i).length)) =
      (List.range (f + 1)).map (fun i => f + 1 - i) := by
    refine List.map_congr_left ?_
    intro i _
    simp
  rw [hlens]
  rfl

/-! ### The global accumulation of `calculate` -/

/-- The subdivision of one base face, with corners fetched from the
icosahedron vertex list exactly as `calculate` does. -/
def subTriOf (sqrt cos sin : K → K) (pi radius : K) (f : ℕ) (face : Face) :
    List (Pt K) × List Face :=
  let iv := (createIcosahedron sqrt cos sin pi radius).1
  subdivideTriangle sqrt radius (iv.getD face.1 (0, 0, 0)) (iv.getD face.2.1 (0, 0, 0))
    (iv.getD face.2.2 (0, 0, 0)) f

theorem calculate_eq_merge (sqrt cos sin : K → K) (pi radius : K) (frequency : ℕ) :
    calculate sqrt cos sin pi radius frequency =
      mergeDuplicates (accPair sqrt cos sin pi radius frequency).1
        (accPair sqrt cos sin pi radius frequency).2 := rfl

/-- The face buffer accumulated by offsetting each base face's local faces by
the number of vertices collected before it. -/
def offsetFacesAcc (sub : Face → List (Pt K) × List Face) (n : ℕ) : List Face → List Face
  | [] => []
  | face :: rest =>
    (sub face).2.map (fun g => (g.1 + n, g.2.1 + n, g.2.2 + n)) ++
      offsetFacesAcc sub (n + (sub face).1.length) rest

theorem calc_fold (sub : Face → List (Pt K) × List Face) :
    ∀ (faces : List Face) (A : List (Pt K)) (B : List Face),
    faces.foldl (fun acc face =>
      (acc.1 ++ (sub face).1,
       acc.2 ++ (sub face).2.map (fun g =>
         (g.1 + acc.1.length, g.2.1 + acc.1.length, g.2.2 + acc.1.length)))) (A, B) =
    (A ++ faces.flatMap (fun face => (sub face).1),
     B ++ offsetFacesAcc sub A.length faces) := by
  intro faces
  induction faces with
  | nil => intro A B; simp [offsetFacesAcc]
  | cons face rest ih =>
    intro A B
    rw [List.foldl_cons, ih]
    simp [offsetFacesAcc, List.flatMap_cons, List.append_assoc]

/-- `accPair` as one global vertex buffer and one offset face buffer. -/
theorem accPair_eq (sqrt cos sin : K → K) (pi radius : K) (f : ℕ) :
    accPair sqrt cos sin pi radius f =
      (icosahedronFaceList.flatMap (fun face => (subTriOf sqrt cos sin pi radius f face).1),
       offsetFacesAcc (subTriOf sqrt cos sin pi radius f) 0 icosahedronFaceList) := by
  have hb : (fun (acc : List (Pt K) × List Face) (face : Face) =>
      let v0 := (createIcosahedron sqrt cos sin pi radius).1.getD face.1 (0, 0, 0)
      let v1 := (createIcosahedron sqrt cos sin pi radius).1.getD face.2.1 (0, 0, 0)
      let v2 := (createIcosahedron sqrt cos sin pi radius).1.getD face.2.2 (0, 0, 0)
      let sub := subdivideTriangle sqrt radius v0 v1 v2 f
      let offset := acc.1.length
      (acc.1 ++ sub.1,
       acc.2 ++ sub.2.map (fun g => (g.1 + offset, g.2.1 + offset, g.2.2 + offset)))) =
      (fun (acc : List (Pt K) × List Face) (face : Face) =>
        (acc.1 ++ (subTriOf sqrt cos sin pi radius f face).1,
         acc.2 ++ (subTriOf sqrt cos sin pi radius f face).2.map (fun g =>
           (g.1 + acc.1.length, g.2.1 + acc.1.length, g.2.2 + acc.1.length)))) := rfl
  have hdef : accPair sqrt cos sin pi radius f =
      icosahedronFaceList.foldl (fun (acc : List (Pt K) × List Face) (face : Face) =>
        let v0 := (createIcosahedron sqrt cos sin pi radius).1.getD face.1 (0, 0, 0)
        let v1 := (createIcosahedron sqrt cos sin pi radius).1.getD face.2.1 (0, 0, 0)
        let v2 := (createIcosahedron sqrt cos sin pi radius).1.getD face.2.2 (0, 0, 0)
        let sub := subdivideTriangle sqrt radius v0 v1 v2 f
        let offset := acc.1.length
        (acc.1 ++ sub.1,
         acc.2 ++ sub.2.map (fun g => (g.1 + offset, g.2.1 + offset, g.2.2 + offset))))
        (([], []) : List (Pt K) × List Face) := by
    unfold accPair
    rfl
  have h3 : (([] : List (Pt K)).length) = 0 := rfl
  have step3 : ((([] : List (Pt K)) ++
        icosahedronFaceList.flatMap (fun face => (subTriOf sqrt cos sin pi radius f face).1),
      ([] : List Face) ++ offsetFacesAcc (subTriOf sqrt cos sin pi radius f)
        ([] : List (Pt K)).length icosahedronFaceList) : List (Pt K) × List Face) =
      (icosahedronFaceList.flatMap (fun face => (subTriOf sqrt cos sin pi radius f face).1),
       offsetFacesAcc (subTriOf sqrt cos sin pi radius f) 0 icosahedronFaceList) :=
    congrArg₂ Prod.mk (List.nil_append _)
      ((List.nil_append _).trans
        (congrArg (fun n => offsetFacesAcc (subTriOf sqrt cos sin pi radius f) n
          icosahedronFaceList) h3))
  exact (hdef.trans (congrArg
    (fun b => icosahedronFaceList.foldl b (([], []) : List (Pt K) × List Face)) hb)).trans
    ((calc_fold (subTriOf sqrt cos sin pi radius f) icosahedronFaceList [] []).trans step3)

/-! ### Global samples and barycentric weight classes -/

/-- All (base face, row, column) samples of one run, in pipeline order. -/
def globalSamples (f : ℕ) : List (Face × ℕ × ℕ) :=
  icosahedronFaceList.flatMap (fun face => (sampleIJ f).map (fun ij => (face, ij.1, ij.2)))

/-- The position the pipeline computes for a sample: fetch the base face's
corners from the icosahedron vertex list, interpolate barycentrically,
project to the sphere. -/
def samplePos (sqrt cos sin : K → K) (pi radius : K) (f : ℕ) (s : Face × ℕ × ℕ) : Pt K :=
  let iv := (createIcosahedron sqrt cos sin pi radius).1
  normalizeAndScale sqrt radius
    (baryPoint (iv.getD s.1.1 (0, 0, 0)) (iv.getD s.1.2.1 (0, 0, 0))
      (iv.getD s.1.2.2 (0, 0, 0)) f s.2.1 s.2.2)

/-- The barycentric weight class of a sample: the multiset holding the base
vertex of weight `a = i/f` with multiplicity `i`, the vertex of weight
`b = j/f` with multiplicity `j` and the vertex of weight `c` with
multiplicity `f - i - j`.  Two samples of a geodesic sphere coincide exactly
when their weight classes coincide, which is what the key hypothesis of the
counting claim states. -/
def wtm (f : ℕ) (s : Face × ℕ × ℕ) : Multiset ℕ :=
  Multiset.replicate s.2.1 s.1.1 + Multiset.replicate s.2.2 s.1.2.1 +
    Multiset.replicate (f - s.2.1 - s.2.2) s.1.2.2

theorem samplePts_eq_map_samplePos (sqrt cos sin : K → K) (pi radius : K) (f : ℕ)
    (face : Face) :
    samplePts sqrt radius
      ((createIcosahedron sqrt cos sin pi radius).1.getD face.1 (0, 0, 0))
      ((createIcosahedron sqrt cos sin pi radius).1.getD face.2.1 (0, 0, 0))
      ((createIcosahedron sqrt cos sin pi radius).1.getD face.2.2 (0, 0, 0)) f =
    (sampleIJ f).map (fun ij => samplePos sqrt cos sin pi radius f (face, ij.1, ij.2)) := rfl

theorem subTriOf_of_nodup (sqrt cos sin : K → K) (pi radius : K) (f : ℕ) (face : Face)
    (hnd : (((sampleIJ f).map (fun ij =>
      samplePos sqrt cos sin pi radius f (face, ij.1, ij.2))).map roundKey).Nodup) :
    subTriOf sqrt cos sin pi radius f face =
      ((sampleIJ f).map (fun ij => samplePos sqrt cos sin pi radius f (face, ij.1, ij.2)),
       gridFaces (gridOf f) f) := by
  have h1 : subTriOf sqrt cos sin pi radius f face =
      subdivideTriangle sqrt radius
        ((createIcosahedron sqrt cos sin pi radius).1.getD face.1 (0, 0, 0))
        ((createIcosahedron sqrt cos sin pi radius).1.getD face.2.1 (0, 0, 0))
        ((createIcosahedron sqrt cos sin pi radius).1.getD face.2.2 (0, 0, 0)) f := rfl
  rw [h1, subdivideTriangle_of_nodup _ _ _ _ _ _
    (by rw [samplePts_eq_map_samplePos]; exact hnd), samplePts_eq_map_samplePos]

/-- Under the per-face key-distinctness hypothesis, the accumulated vertex
buffer is exactly the list of sample positions in pipeline order. -/
theorem accPair_fst_of_nodup (sqrt cos sin : K → K) (pi radius : K) (f : ℕ)
    (hnd : ∀ face ∈ icosahedronFaceList, (((sampleIJ f).map (fun ij =>
      samplePos sqrt cos sin pi radius f (face, ij.1, ij.2))).map roundKey).Nodup) :
    (accPair sqrt cos sin pi radius f).1 =
      (globalSamples f).map (samplePos sqrt cos sin pi radius f) := by
  rw [accPair_eq]
  show icosahedronFaceList.flatMap (fun face => (subTriOf sqrt cos sin pi radius f face).1) = _
  unfold globalSamples
  rw [List.map_flatMap]
  refine List.flatMap_congr ?_
  intro face hface
  rw [subTriOf_of_nodup sqrt cos sin pi radius f face (hnd face hface)]
  rw [List.map_map]
  rfl

/-! ### Counting distinct keys -/

theorem length_mergeVertsSpecAux (pts : List (Pt K)) :
    ∀ seen : List (Pt K), (mergeVertsSpecAux seen pts).length =
      ((pts.map roundKey).toFinset \ seen.toFinset).card := by
  induction pts with
  | nil => intro seen; simp [mergeVertsSpecAux]
  | cons p ps ih =>
    intro seen
    rw [List.map_cons, List.toFinset_cons]
    by_cases hp : roundKey p ∈ seen
    · rw [mergeVertsSpecAux, if_pos hp, ih seen,
        Finset.insert_sdiff_of_mem _ (List.mem_toFinset.mpr hp)]
    · rw [mergeVertsSpecAux, if_neg hp, List.length_cons, ih (roundKey p :: seen)]
      have e1 : (ps.map roundKey).toFinset \ (roundKey p :: seen).toFinset =
          ((ps.map roundKey).toFinset \ seen.toFinset).erase (roundKey p) := by
        ext x
        simp only [Finset.mem_sdiff, Finset.mem_erase, List.toFinset_cons, Finset.mem_insert,
          not_or, List.mem_toFinset]
        tauto
      have e2 : insert (roundKey p) (ps.map roundKey).toFinset \ seen.toFinset =
          insert (roundKey p) ((ps.map roundKey).toFinset \ seen.toFinset) := by
        ext x
        simp only [Finset.mem_sdiff, Finset.mem_insert, List.mem_toFinset]
        constructor
        · rintro ⟨hx | hx, hx2⟩
          · exact Or.inl hx
          · exact Or.inr ⟨hx, hx2⟩
        · rintro (hx | ⟨hx, hx2⟩)
          · exact ⟨Or.inl hx, hx ▸ fun hc => hp hc⟩
          · exact ⟨Or.inr hx, hx2⟩
      rw [e1, e2]
      by_cases ha : roundKey p ∈ (ps.map roundKey).toFinset \ seen.toFinset
      · rw [Finset.card_erase_of_mem ha, Finset.insert_eq_self.mpr ha]
        have : 0 < ((ps.map roundKey).toFinset \ seen.toFinset).card :=
          Finset.card_pos.mpr ⟨_, ha⟩
        omega
      · rw [Finset.erase_eq_of_not_mem ha, Finset.card_insert_of_not_mem ha]

theorem length_mergeVertsSpec (pts : List (Pt K)) :
    (mergeVertsSpec pts).length = (pts.map roundKey).toFinset.card := by
  rw [mergeVertsSpec, length_mergeVertsSpecAux pts []]
  simp

theorem toFinset_card_map_eq {α β γ : Type} [DecidableEq β] [DecidableEq γ]
    (l : List α) (g : α → β) (h : α → γ)
    (hiff : ∀ a ∈ l, ∀ b ∈ l, (g a = g b ↔ h a = h b)) :
    (l.map g).toFinset.card = (l.map h).toFinset.card := by
  induction l with
  | nil => simp
  | cons a l' ih =>
    have hiff' : ∀ x ∈ l', ∀ y ∈ l', (g x = g y ↔ h x = h y) :=
      fun x hx y hy => hiff x (by simp [hx]) y (by simp [hy])
    rw [List.map_cons, List.map_cons, List.toFinset_cons, List.toFinset_cons]
    by_cases hga : g a ∈ (l'.map g).toFinset
    · have hha : h a ∈ (l'.map h).toFinset := by
        rcases List.mem_map.mp (List.mem_toFinset.mp hga) with ⟨b, hb, hgb⟩
        exact List.mem_toFinset.mpr (List.mem_map.mpr ⟨b, hb,
          (hiff b (by simp [hb]) a (by simp)).mp hgb⟩)
      rw [Finset.insert_eq_self.mpr hga, Finset.insert_eq_self.mpr hha]
      exact ih hiff'
    · have hha : h a ∉ (l'.map h).toFinset := by
        intro hc
        rcases List.mem_map.mp (List.mem_toFinset.mp hc) with ⟨b, hb, hgb⟩
        exact hga (List.mem_toFinset.mpr (List.mem_map.mpr ⟨b, hb,
          (hiff b (by simp [hb]) a (by simp)).mpr hgb⟩))
      rw [Finset.card_insert_of_not_mem hga, Finset.card_insert_of_not_mem hha, ih hiff']

theorem roundKey_findIdx_eq (l : List (Pt K)) (k : Pt K)
    (hmem : k ∈ l.map roundKey) :
    roundKey (l.getD (l.findIdx (fun v => decide (roundKey v = k))) (0, 0, 0)) = k := by
  induction l with
  | nil => simp at hmem
  | cons v vs ih =>
    by_cases hv : roundKey v = k
    · rw [List.findIdx_cons, hv]
      simp [hv]
    · have hmem' : k ∈ vs.map roundKey := by
        have h2 : k ∈ roundKey v :: vs.map roundKey := by
          simpa only [List.map_cons] using hmem
        rcases List.mem_cons.mp h2 with h1 | h1
        · exact absurd h1.symm hv
        · exact h1
      rw [List.findIdx_cons, decide_eq_false hv]
      simpa using ih hmem'

theorem findIdx_lt_of_key_mem (l : List (Pt K)) (k : Pt K) (hmem : k ∈ l.map roundKey) :
    l.findIdx (fun v => decide (roundKey v = k)) < l.length := by
  rcases List.mem_map.mp hmem with ⟨v, hv, hkv⟩
  exact List.findIdx_lt_length_of_exists ⟨v, hv, by simp [hkv]⟩

/-- The merged index map is injective on the keys that occur. -/
theorem mergeIndexSpec_inj (verts : List (Pt K)) (k1 k2 : Pt K)
    (h1 : k1 ∈ (mergeVertsSpec verts).map roundKey)
    (h2 : k2 ∈ (mergeVertsSpec verts).map roundKey)
    (heq : mergeIndexSpec verts k1 = mergeIndexSpec verts k2) : k1 = k2 := by
  have e1 := roundKey_findIdx_eq (mergeVertsSpec verts) k1 h1
  have e2 := roundKey_findIdx_eq (mergeVertsSpec verts) k2 h2
  rw [← e1, ← e2]
  unfold mergeIndexSpec at heq
  rw [heq]

/-- The merged index of an occurring key is within bounds. -/
theorem mergeIndexSpec_lt (verts : List (Pt K)) (k : Pt K)
    (h : k ∈ (mergeVertsSpec verts).map roundKey) :
    mergeIndexSpec verts k < (mergeVertsSpec verts).length :=
  findIdx_lt_of_key_mem _ _ h

/-! ### Positional arithmetic of the sample grid -/

theorem rowStart_succ (f i : ℕ) : rowStart f (i + 1) = rowStart f i + (f + 1 - i) := by
  unfold rowStart
  rw [List.range_succ, List.map_append, List.sum_append]
  simp

theorem rowStart_le (f : ℕ) : ∀ i1 i2 : ℕ, i1 ≤ i2 → rowStart f i1 ≤ rowStart f i2 := by
  intro i1 i2 h
  induction i2 with
  | zero => simp [Nat.le_zero.mp h]
  | succ i2 ih =>
    rcases Nat.lt_or_ge i1 (i2 + 1) with h2 | h2
    · have := ih (by omega)
      rw [rowStart_succ]
      omega
    · have : i1 = i2 + 1 := by omega
      rw [this]

theorem sampleIJ_length (f : ℕ) : (sampleIJ f).length = rowStart f (f + 1) := by
  unfold sampleIJ rowStart
  rw [List.length_flatMap]
  congr 1
  refine List.map_congr_left ?_
  intro i _
  simp

theorem rank_lt_total (f i j : ℕ) (hi : i ≤ f) (hj : j ≤ f - i) :
    rowStart f i + j < (sampleIJ f).length := by
  rw [sampleIJ_length]
  have h1 : rowStart f i + j < rowStart f (i + 1) := by
    rw [rowStart_succ]
    omega
  have h2 : rowStart f (i + 1) ≤ rowStart f (f + 1) := rowStart_le f _ _ (by omega)
  omega

theorem gridOf_getD (f i j : ℕ) (hi : i ≤ f) (hj : j ≤ f - i) :
    ((gridOf f).getD i []).getD j 0 = rowStart f i + j := by
  unfold gridOf
  have hlen : i < ((List.range (f + 1)).map (fun r => f + 1 - r)).length := by
    simpa using (by omega : i < f + 1)
  rw [gridIdx_getD _ 0 i hlen]
  have htake : (((List.range (f + 1)).map (fun r => f + 1 - r)).take i).sum = rowStart f i := by
    rw [← List.map_take, List.take_range]
    have : min i (f + 1) = i := by omega
    rw [this]
    rfl
  have hget : ((List.range (f + 1)).map (fun r => f + 1 - r)).getD i 0 = f + 1 - i := by
    rw [List.getD_eq_getElem _ _ hlen]
    simp
  rw [htake, hget, Nat.zero_add]
  have hj' : j < f + 1 - i := by omega
  rw [List.getD_eq_getElem _ _ (by simpa using hj'), List.getElem_range']
  omega

theorem getD_map {α β : Type} (l : List α) (F : α → β) (n : ℕ) (d : β) (fb : α)
    (h : n < l.length) : (l.map F).getD n d = F (l.getD n fb) := by
  rw [List.getD_eq_getElem _ _ (by simpa using h), List.getD_eq_getElem _ _ h]
  simp

theorem flatMap_rows_getD {α : Type} (rows : ℕ → List α) (d : α) :
    ∀ (is : List ℕ) (t r : ℕ), t < is.length → r < (rows (is.getD t 0)).length →
    (is.flatMap rows).getD ((((is.take t).map (fun u => (rows u).length)).sum) + r) d =
      (rows (is.getD t 0)).getD r d := by
  intro is
  induction is with
  | nil => intro t r ht _; simp at ht
  | cons u us ih =>
    intro t r ht hr
    cases t with
    | zero =>
      simp only [List.take_zero, List.map_nil, List.sum_nil, Nat.zero_add, List.flatMap_cons,
        List.getD_cons_zero] at hr ⊢
      rw [List.getD_append _ _ _ _ (by simpa using hr)]
    | succ t =>
      have ht' : t < us.length := by simpa using ht
      simp only [List.getD_cons_succ] at hr ⊢
      rw [List.flatMap_cons, List.take_succ_cons, List.map_cons, List.sum_cons]
      rw [show (rows u).length + ((us.take t).map (fun v => (rows v).length)).sum + r =
        (rows u).length + (((us.take t).map (fun v => (rows v).length)).sum + r) by omega]
      rw [List.getD_append_right _ _ _ _ (by omega)]
      simp only [Nat.add_sub_cancel_left]
      exact ih t r ht' hr

theorem flatMap_getD_const_len {α β : Type} (g : β → List α) (S : ℕ) (d : α) (fb : β) :
    ∀ (l : List β), (∀ b ∈ l, (g b).length = S) →
    ∀ t r, t < l.length → r < S →
    (l.flatMap g).getD (t * S + r) d = (g (l.getD t fb)).getD r d := by
  intro l
  induction l with
  | nil => intro _ t r ht _; simp at ht
  | cons b bs ih =>
    intro hlen t r ht hr
    cases t with
    | zero =>
      simp only [Nat.zero_mul, Nat.zero_add, List.flatMap_cons, List.getD_cons_zero]
      rw [List.getD_append _ _ _ _ (by rw [hlen b (by simp)]; exact hr)]
    | succ t =>
      have ht' : t < bs.length := by simpa using ht
      simp only [List.getD_cons_succ, List.flatMap_cons]
      rw [show (t + 1) * S + r = (g b).length + (t * S + r) by rw [hlen b (by simp)]; ring]
      rw [List.getD_append_right _ _ _ _ (by omega)]
      simp only [Nat.add_sub_cancel_left]
      exact ih (fun x hx => hlen x (by simp [hx])) t r ht' hr

theorem sampleIJ_getD (f i j : ℕ) (hi : i ≤ f) (hj : j ≤ f - i) :
    (sampleIJ f).getD (rowStart f i + j) (0, 0) = (i, j) := by
  unfold sampleIJ
  have hget : (List.range (f + 1)).getD i 0 = i := by
    rw [List.getD_eq_getElem _ _ (by simpa using (by omega : i < f + 1))]
    simp
  have h := flatMap_rows_getD (fun r => (List.range (f + 1 - r)).map (fun j => (r, j)))
    ((0, 0) : ℕ × ℕ) (List.range (f + 1)) i j
    (by simpa using (by omega : i < f + 1))
    (by rw [hget]; simpa using (by omega : j < f + 1 - i))
  rw [hget] at h
  have htake : (((List.range (f + 1)).take i).map
      (fun u => ((List.range (f + 1 - u)).map (fun j => (u, j))).length)).sum =
      rowStart f i := by
    rw [List.take_range]
    have : min i (f + 1) = i := by omega
    rw [this]
    unfold rowStart
    congr 1
    refine List.map_congr_left ?_
    intro u _
    simp
  rw [htake] at h
  rw [h]
  rw [getD_map _ _ _ _ 0 (by simpa using (by omega : j < f + 1 - i))]
  have : (List.range (f + 1 - i)).getD j 0 = j := by
    rw [List.getD_eq_getElem _ _ (by simpa using (by omega : j < f + 1 - i))]
    simp
  rw [this]

/-! ### The accumulated face buffer -/

theorem offsetFacesAcc_length (sub : Face → List (Pt K) × List Face) :
    ∀ (faces : List Face) (n : ℕ),
    (offsetFacesAcc sub n faces).length = (faces.map (fun face => (sub face).2.length)).sum := by
  intro faces
  induction faces with
  | nil => intro n; rfl
  | cons face rest ih =>
    intro n
    rw [offsetFacesAcc, List.length_append, List.length_map, ih, List.map_cons, List.sum_cons]

theorem offsetFacesAcc_mem (sub : Face → List (Pt K) × List Face) (S : ℕ) :
    ∀ (faces : List Face) (n : ℕ), (∀ face ∈ faces, (sub face).1.length = S) →
    ∀ g ∈ offsetFacesAcc sub n faces, ∃ t, t < faces.length ∧
      ∃ lf ∈ (sub (faces.getD t (0, 0, 0))).2,
        g = (lf.1 + (n + t * S), lf.2.1 + (n + t * S), lf.2.2 + (n + t * S)) := by
  intro faces
  induction faces with
  | nil => intro n _ g hg; exact absurd hg (List.not_mem_nil g)
  | cons face rest ih =>
    intro n hlen g hg
    rw [offsetFacesAcc, List.mem_append] at hg
    rcases hg with hg | hg
    · rcases List.mem_map.mp hg with ⟨lf, hlf, hglf⟩
      exact ⟨0, by simp, lf, by simpa using hlf, by simp [← hglf]⟩
    · rcases ih (n + (sub face).1.length) (fun x hx => hlen x (by simp [hx])) g hg with
        ⟨t, ht, lf, hlf, hglf⟩
      refine ⟨t + 1, by simpa using ht, lf, by simpa using hlf, ?_⟩
      have h2 : n + (sub face).1.length + t * S = n + (t + 1) * S := by
        rw [hlen face (by simp)]
        ring
      rw [hglf, h2]

/-! ### Counting the weight classes of an icosahedral subdivision -/

/-- A vertex pair in increasing order. -/
def sortPair (p : ℕ × ℕ) : ℕ × ℕ := if p.1 ≤ p.2 then p else (p.2, p.1)

/-- The 30 undirected edges of the icosahedron, as sorted vertex pairs. -/
def icoEdges : Finset (ℕ × ℕ) :=
  icosahedronFaceList.toFinset.biUnion (fun face =>
    {sortPair (face.1, face.2.1), sortPair (face.2.1, face.2.2), sortPair (face.1, face.2.2)})

/-- Weight classes concentrated on one base vertex. -/
def polesW (f : ℕ) : Finset (Multiset ℕ) :=
  (Finset.range 12).image (fun v => Multiset.replicate f v)

/-- Weight classes supported on the two ends of one base edge. -/
def edgesW (f : ℕ) : Finset (Multiset ℕ) :=
  icoEdges.biUnion (fun e => (Finset.Ioo 0 f).image
    (fun k => Multiset.replicate k e.1 + Multiset.replicate (f - k) e.2))

/-- Grid positions interior to a base face. -/
def intIJ (f : ℕ) : Finset (ℕ × ℕ) :=
  (Finset.range f).biUnion (fun k => (Finset.Icc 1 (f - 2 - k)).image (fun j => (k + 1, j)))

/-- Weight classes supported on all three corners of one base face. -/
def intW (f : ℕ) : Finset (Multiset ℕ) :=
  icosahedronFaceList.toFinset.biUnion (fun face =>
    (intIJ f).image (fun ij => wtm f (face, ij.1, ij.2)))

theorem icoFaces_lt_12 : ∀ face ∈ icosahedronFaceList,
    face.1 < 12 ∧ face.2.1 < 12 ∧ face.2.2 < 12 := by decide

theorem icoFaces_distinct : ∀ face ∈ icosahedronFaceList,
    face.1 ≠ face.2.1 ∧ face.2.1 ≠ face.2.2 ∧ face.1 ≠ face.2.2 := by decide

theorem icoFaces_cover : ∀ v ∈ Finset.range 12, ∃ face ∈ icosahedronFaceList,
    face.1 = v ∨ face.2.1 = v ∨ face.2.2 = v := by decide

theorem icoFaces_vertexSet_inj : ∀ f1 ∈ icosahedronFaceList, ∀ f2 ∈ icosahedronFaceList,
    ({f1.1, f1.2.1, f1.2.2} : Finset ℕ) = {f2.1, f2.2.1, f2.2.2} → f1 = f2 := by decide

theorem icoEdges_card : icoEdges.card = 30 := by decide

theorem icoEdges_sorted : ∀ e ∈ icoEdges, e.1 < e.2 := by decide

theorem icoFaces_toFinset_card : icosahedronFaceList.toFinset.card = 20 := by decide

theorem icoFaces_edges_mem : ∀ face ∈ icosahedronFaceList,
    sortPair (face.1, face.2.1) ∈ icoEdges ∧ sortPair (face.2.1, face.2.2) ∈ icoEdges ∧
    sortPair (face.1, face.2.2) ∈ icoEdges := by decide

theorem sorted_pair_eq {a b c d : ℕ} (h1 : a < b) (h2 : c < d)
    (h : ({a, b} : Finset ℕ) = {c, d}) : a = c ∧ b = d := by
  have ha : a = c ∨ a = d := by
    simpa using (Finset.ext_iff.mp h a).mp (by simp)
  have hb : b = c ∨ b = d := by
    simpa using (Finset.ext_iff.mp h b).mp (by simp)
  have hc : c = a ∨ c = b := by
    simpa using (Finset.ext_iff.mp h c).mpr (by simp)
  omega

theorem polesW_card (f : ℕ) (hf : 1 ≤ f) : (polesW f).card = 12 := by
  unfold polesW
  have hinj : Set.InjOn (fun v => Multiset.replicate f v) (↑(Finset.range 12) : Set ℕ) := by
    intro a _ b _ hab
    have hab' : Multiset.replicate f a = Multiset.replicate f b := hab
    have hmem : a ∈ Multiset.replicate f b :=
      hab' ▸ (Multiset.mem_replicate.mpr ⟨by omega, rfl⟩)
    exact Multiset.eq_of_mem_replicate hmem
  rw [Finset.card_image_of_injOn hinj, Finset.card_range]

theorem edge_class_toFinset (u v k f : ℕ) (hk : 0 < k) (hkf : k < f) :
    (Multiset.replicate k u + Multiset.replicate (f - k) v).toFinset = {u, v} := by
  rw [Multiset.toFinset_add, Multiset.toFinset_replicate, Multiset.toFinset_replicate,
    if_neg (by omega), if_neg (by omega : ¬ (f - k = 0))]
  ext x
  simp

theorem edgesW_card (f : ℕ) : (edgesW f).card = 30 * (f - 1) := by
  unfold edgesW
  have hdisj : ∀ e1 ∈ icoEdges, ∀ e2 ∈ icoEdges, e1 ≠ e2 →
      Disjoint ((Finset.Ioo 0 f).image
        (fun k => Multiset.replicate k e1.1 + Multiset.replicate (f - k) e1.2))
        ((Finset.Ioo 0 f).image
        (fun k => Multiset.replicate k e2.1 + Multiset.replicate (f - k) e2.2)) := by
    intro e1 he1 e2 he2 hne
    rw [Finset.disjoint_left]
    intro m hm1 hm2
    rcases Finset.mem_image.mp hm1 with ⟨k1, hk1, hmk1⟩
    rcases Finset.mem_image.mp hm2 with ⟨k2, hk2, hmk2⟩
    rw [Finset.mem_Ioo] at hk1 hk2
    have ht1 : m.toFinset = {e1.1, e1.2} :=
      hmk1 ▸ edge_class_toFinset e1.1 e1.2 k1 f hk1.1 hk1.2
    have ht2 : m.toFinset = {e2.1, e2.2} :=
      hmk2 ▸ edge_class_toFinset e2.1 e2.2 k2 f hk2.1 hk2.2
    have hp := sorted_pair_eq (icoEdges_sorted e1 he1) (icoEdges_sorted e2 he2)
      (ht1 ▸ ht2)
    exact hne (Prod.ext hp.1 hp.2)
  rw [Finset.card_biUnion hdisj]
  have h1 : ∀ e ∈ icoEdges, ((Finset.Ioo 0 f).image
      (fun k => Multiset.replicate k e.1 + Multiset.replicate (f - k) e.2)).card = f - 1 := by
    intro e he
    have hne : e.1 ≠ e.2 := Nat.ne_of_lt (icoEdges_sorted e he)
    have hinj : Set.InjOn (fun k => Multiset.replicate k e.1 + Multiset.replicate (f - k) e.2)
        (Finset.Ioo 0 f) := by
      intro k1 hk1 k2 hk2 heq
      have hc := congrArg (Multiset.count e.1) heq
      simpa [Multiset.count_add, Multiset.count_replicate, hne, Ne.symm hne] using hc
    rw [Finset.card_image_of_injOn hinj, Nat.card_Ioo]
    omega
  rw [Finset.sum_congr rfl h1, Finset.sum_const, smul_eq_mul, icoEdges_card]

theorem intIJ_mem (f : ℕ) (ij : ℕ × ℕ) :
    ij ∈ intIJ f ↔ 1 ≤ ij.1 ∧ 1 ≤ ij.2 ∧ ij.1 + ij.2 ≤ f - 1 := by
  obtain ⟨i, j⟩ := ij
  simp only [intIJ, Finset.mem_biUnion, Finset.mem_range, Finset.mem_image, Finset.mem_Icc,
    Prod.mk.injEq]
  constructor
  · rintro ⟨k, hk, j', ⟨hj1, hj2⟩, hi, hj⟩
    omega
  · rintro ⟨h1, h2, h3⟩
    exact ⟨i - 1, by omega, j, ⟨by omega, by omega⟩, by omega, rfl⟩

theorem intIJ_card_two (f : ℕ) : (intIJ f).card * 2 = (f - 1) * (f - 2) := by
  unfold intIJ
  have hdisj : ∀ k1 ∈ Finset.range f, ∀ k2 ∈ Finset.range f, k1 ≠ k2 →
      Disjoint ((Finset.Icc 1 (f - 2 - k1)).image (fun j => (k1 + 1, j)))
        ((Finset.Icc 1 (f - 2 - k2)).image (fun j => (k2 + 1, j))) := by
    intro k1 _ k2 _ hne
    rw [Finset.disjoint_left]
    intro ij h1 h2
    rcases Finset.mem_image.mp h1 with ⟨j1, _, hj1⟩
    rcases Finset.mem_image.mp h2 with ⟨j2, _, hj2⟩
    apply hne
    have e1 := congrArg Prod.fst hj1
    have e2 := congrArg Prod.fst hj2
    simp only at e1 e2
    omega
  rw [Finset.card_biUnion hdisj]
  have h1 : ∀ k ∈ Finset.range f,
      ((Finset.Icc 1 (f - 2 - k)).image (fun j => (k + 1, j))).card = f - 2 - k := by
    intro k _
    have hinj : Set.InjOn (fun j => ((k + 1, j) : ℕ × ℕ)) (Finset.Icc 1 (f - 2 - k)) := by
      intro a _ b _ hab
      simpa using congrArg Prod.snd hab
    rw [Finset.card_image_of_injOn hinj, Nat.card_Icc]
    omega
  rw [Finset.sum_congr rfl h1]
  rcases Nat.eq_zero_or_pos f with h0 | h0
  · subst h0
    simp
  · obtain ⟨m, rfl⟩ : ∃ m, f = m + 1 := ⟨f - 1, by omega⟩
    rw [Finset.sum_range_succ]
    have hlast : m + 1 - 2 - m = 0 := by omega
    rw [hlast, Nat.add_zero]
    have hcong : ∀ k ∈ Finset.range m, m + 1 - 2 - k = m - 1 - k := by
      intro k _
      omega
    rw [Finset.sum_congr rfl hcong]
    have hrefl := Finset.sum_range_reflect (fun k => k) m
    simp only at hrefl
    rw [hrefl, Finset.sum_range_id_mul_two]
    rw [show m + 1 - 1 = m from rfl, show m + 1 - 2 = m - 1 by omega]

theorem wtm_toFinset_int (f : ℕ) (face : Face) (i j : ℕ) (h1 : 1 ≤ i) (h2 : 1 ≤ j)
    (h3 : i + j ≤ f - 1) (hf : 1 ≤ f) :
    (wtm f (face, i, j)).toFinset = {face.1, face.2.1, face.2.2} := by
  unfold wtm
  have hi0 : ¬ (i = 0) := by omega
  have hj0 : ¬ (j = 0) := by omega
  have hk0 : ¬ (f - i - j = 0) := by omega
  rw [Multiset.toFinset_add, Multiset.toFinset_add, Multiset.toFinset_replicate,
    Multiset.toFinset_replicate, Multiset.toFinset_replicate,
    if_neg hi0, if_neg hj0, if_neg hk0]
  ext x
  simp [or_assoc]

theorem intW_card (f : ℕ) (hf : 1 ≤ f) : (intW f).card = 20 * (intIJ f).card := by
  unfold intW
  have hdisj : ∀ f1 ∈ icosahedronFaceList.toFinset, ∀ f2 ∈ icosahedronFaceList.toFinset,
      f1 ≠ f2 → Disjoint ((intIJ f).image (fun ij : ℕ × ℕ => wtm f (f1, ij.1, ij.2)))
        ((intIJ f).image (fun ij : ℕ × ℕ => wtm f (f2, ij.1, ij.2))) := by
    intro f1 hf1 f2 hf2 hne
    rw [Finset.disjoint_left]
    intro m hm1 hm2
    rcases Finset.mem_image.mp hm1 with ⟨a, ha, hma⟩
    rcases Finset.mem_image.mp hm2 with ⟨b, hb, hmb⟩
    obtain ⟨ha1, ha2, ha3⟩ := (intIJ_mem f a).mp ha
    obtain ⟨hb1, hb2, hb3⟩ := (intIJ_mem f b).mp hb
    have ht1 : m.toFinset = {f1.1, f1.2.1, f1.2.2} :=
      hma ▸ wtm_toFinset_int f f1 a.1 a.2 ha1 ha2 ha3 hf
    have ht2 : m.toFinset = {f2.1, f2.2.1, f2.2.2} :=
      hmb ▸ wtm_toFinset_int f f2 b.1 b.2 hb1 hb2 hb3 hf
    exact hne (icoFaces_vertexSet_inj f1 (List.mem_toFinset.mp hf1) f2
      (List.mem_toFinset.mp hf2) (ht1 ▸ ht2))
  rw [Finset.card_biUnion hdisj]
  have h1 : ∀ face ∈ icosahedronFaceList.toFinset,
      ((intIJ f).image (fun ij : ℕ × ℕ => wtm f (face, ij.1, ij.2))).card = (intIJ f).card := by
    intro face hface
    have hd := icoFaces_distinct face (List.mem_toFinset.mp hface)
    have hinj : Set.InjOn (fun ij : ℕ × ℕ => wtm f (face, ij.1, ij.2)) (intIJ f) := by
      intro a _ b _ hab
      obtain ⟨ai, aj⟩ := a
      obtain ⟨bi, bj⟩ := b
      have hab' : wtm f (face, ai, aj) = wtm f (face, bi, bj) := hab
      have hc1 := congrArg (Multiset.count face.1) hab'
      have hc2 := congrArg (Multiset.count face.2.1) hab'
      simp [wtm, Multiset.count_add, Multiset.count_replicate, hd.1, hd.2.1, hd.2.2,
        Ne.symm hd.1, Ne.symm hd.2.1, Ne.symm hd.2.2] at hc1 hc2
      rw [Prod.mk.injEq]
      exact ⟨hc1, hc2⟩
    rw [Finset.card_image_of_injOn hinj]
  rw [Finset.sum_congr rfl h1, Finset.sum_const, smul_eq_mul, icoFaces_toFinset_card]

theorem sortPair_of_le {a b : ℕ} (h : a ≤ b) : sortPair (a, b) = (a, b) := by
  unfold sortPair
  rw [if_pos h]

theorem sortPair_of_gt {a b : ℕ} (h : b < a) : sortPair (a, b) = (b, a) := by
  unfold sortPair
  rw [if_neg (by omega)]

theorem sampleIJ_mem (f : ℕ) (ij : ℕ × ℕ) :
    ij ∈ sampleIJ f ↔ ij.1 ≤ f ∧ ij.2 ≤ f - ij.1 := by
  obtain ⟨i, j⟩ := ij
  simp only [sampleIJ, List.mem_flatMap, List.mem_map, List.mem_range, Prod.mk.injEq]
  constructor
  · rintro ⟨i', hi', j', hj', rfl, rfl⟩
    omega
  · rintro ⟨h1, h2⟩
    exact ⟨i, by omega, j, by omega, rfl, rfl⟩

theorem globalSamples_mem (f : ℕ) (face : Face) (i j : ℕ) :
    (face, i, j) ∈ globalSamples f ↔ face ∈ icosahedronFaceList ∧ i ≤ f ∧ j ≤ f - i := by
  simp only [globalSamples, List.mem_flatMap, List.mem_map, Prod.mk.injEq]
  constructor
  · rintro ⟨face', hface', ij, hij, rfl, rfl, rfl⟩
    have h2 := (sampleIJ_mem f ij).mp hij
    exact ⟨hface', h2.1, h2.2⟩
  · rintro ⟨hface, h1, h2⟩
    exact ⟨face, hface, (i, j), (sampleIJ_mem f (i, j)).mpr ⟨h1, h2⟩, rfl, rfl, rfl⟩

/-- The set of weight classes of all samples is exactly: one class per base
vertex, `f - 1` classes per base edge, and the interior classes of the 20
base faces. -/
theorem wtm_image_eq (f : ℕ) (hf : 1 ≤ f) :
    ((globalSamples f).map (wtm f)).toFinset = polesW f ∪ edgesW f ∪ intW f := by
  ext m
  simp only [List.mem_toFinset, List.mem_map, Finset.mem_union]
  constructor
  · rintro ⟨s, hs, rfl⟩
    obtain ⟨face, i, j⟩ := s
    obtain ⟨hface, hi, hj⟩ := (globalSamples_mem f face i j).mp hs
    have hlt := icoFaces_lt_12 face hface
    have hd := icoFaces_distinct face hface
    have hedges := icoFaces_edges_mem face hface
    rcases Nat.eq_zero_or_pos i with hi0 | hi0 <;>
      rcases Nat.eq_zero_or_pos j with hj0 | hj0 <;>
      rcases Nat.eq_zero_or_pos (f - i - j) with hk0 | hk0
    · omega
    · -- i = 0, j = 0, k > 0 : pole at the third corner
      subst hi0; subst hj0
      refine Or.inl (Or.inl (Finset.mem_image.mpr ⟨face.2.2, Finset.mem_range.mpr hlt.2.2, ?_⟩))
      simp [wtm]
    · -- i = 0, j > 0, k = 0 : pole at the second corner (j = f)
      subst hi0
      have hjf : j = f := by omega
      subst hjf
      refine Or.inl (Or.inl (Finset.mem_image.mpr ⟨face.2.1, Finset.mem_range.mpr hlt.2.1, ?_⟩))
      simp [wtm]
    · -- i = 0, j > 0, k > 0 : edge between second and third corners
      subst hi0
      refine Or.inl (Or.inr (Finset.mem_biUnion.mpr ?_))
      rcases Nat.lt_or_ge face.2.1 face.2.2 with hbc | hbc
      · refine ⟨sortPair (face.2.1, face.2.2), hedges.2.1, Finset.mem_image.mpr
          ⟨j, Finset.mem_Ioo.mpr ⟨by omega, by omega⟩, ?_⟩⟩
        rw [sortPair_of_le (by omega)]
        simp [wtm]
      · have hbc' : face.2.2 < face.2.1 := by
          rcases Nat.lt_or_ge face.2.2 face.2.1 with h | h
          · exact h
          · omega
        refine ⟨sortPair (face.2.1, face.2.2), hedges.2.1, Finset.mem_image.mpr
          ⟨f - j, Finset.mem_Ioo.mpr ⟨by omega, by omega⟩, ?_⟩⟩
        rw [sortPair_of_gt hbc']
        simp only [wtm, Multiset.replicate_zero, zero_add]
        rw [show f - (f - j) = j by omega, show f - 0 - j = f - j by omega]
        exact add_comm _ _
    · -- j = 0, i > 0, k = 0 : pole at the first corner (i = f)
      subst hj0
      have hif : i = f := by omega
      subst hif
      refine Or.inl (Or.inl (Finset.mem_image.mpr ⟨face.1, Finset.mem_range.mpr hlt.1, ?_⟩))
      simp [wtm]
    · -- j = 0, i > 0, k > 0 : edge between first and third corners
      subst hj0
      refine Or.inl (Or.inr (Finset.mem_biUnion.mpr ?_))
      rcases Nat.lt_or_ge face.1 face.2.2 with hac | hac
      · refine ⟨sortPair (face.1, face.2.2), hedges.2.2, Finset.mem_image.mpr
          ⟨i, Finset.mem_Ioo.mpr ⟨by omega, by omega⟩, ?_⟩⟩
        rw [sortPair_of_le (by omega)]
        simp [wtm]
      · have hac' : face.2.2 < face.1 := by omega
        refine ⟨sortPair (face.1, face.2.2), hedges.2.2, Finset.mem_image.mpr
          ⟨f - i, Finset.mem_Ioo.mpr ⟨by omega, by omega⟩, ?_⟩⟩
        rw [sortPair_of_gt hac']
        simp only [wtm, Multiset.replicate_zero, add_zero]
        rw [show f - (f - i) = i by omega, show f - i - 0 = f - i by omega]
        exact add_comm _ _
    · -- k = 0, i > 0, j > 0 : edge between first and second corners
      have hjf : j = f - i := by omega
      subst hjf
      refine Or.inl (Or.inr (Finset.mem_biUnion.mpr ?_))
      rcases Nat.lt_or_ge face.1 face.2.1 with hab | hab
      · refine ⟨sortPair (face.1, face.2.1), hedges.1, Finset.mem_image.mpr
          ⟨i, Finset.mem_Ioo.mpr ⟨by omega, by omega⟩, ?_⟩⟩
        rw [sortPair_of_le (by omega)]
        simp only [wtm]
        rw [show f - i - (f - i) = 0 by omega]
        simp
      · have hab' : face.2.1 < face.1 := by omega
        refine ⟨sortPair (face.1, face.2.1), hedges.1, Finset.mem_image.mpr
          ⟨f - i, Finset.mem_Ioo.mpr ⟨by omega, by omega⟩, ?_⟩⟩
        rw [sortPair_of_gt hab']
        simp only [wtm]
        rw [show f - (f - i) = i by omega, show f - i - (f - i) = 0 by omega]
        simp only [Multiset.replicate_zero, add_zero]
        exact add_comm _ _
    · -- all three weights positive : interior class
      refine Or.inr (Finset.mem_biUnion.mpr ⟨face, List.mem_toFinset.mpr hface,
        Finset.mem_image.mpr ⟨(i, j), (intIJ_mem f (i, j)).mpr ⟨by omega, by omega, by omega⟩,
          rfl⟩⟩)
  · rintro ((hm | hm) | hm)
    · -- a pole class comes from a corner sample
      rcases Finset.mem_image.mp hm with ⟨v, hv, rfl⟩
      rcases icoFaces_cover v hv with ⟨face, hface, hpos⟩
      rcases hpos with hpos | hpos | hpos
      · refine ⟨(face, f, 0), (globalSamples_mem f _ _ _).mpr ⟨hface, by omega, by omega⟩, ?_⟩
        rw [← hpos]
        simp [wtm]
      · refine ⟨(face, 0, f), (globalSamples_mem f _ _ _).mpr ⟨hface, by omega, by omega⟩, ?_⟩
        rw [← hpos]
        simp [wtm]
      · refine ⟨(face, 0, 0), (globalSamples_mem f _ _ _).mpr ⟨hface, by omega, by omega⟩, ?_⟩
        rw [← hpos]
        simp [wtm]
    · -- an edge class comes from an edge sample
      rcases Finset.mem_biUnion.mp hm with ⟨e, he, hme⟩
      rcases Finset.mem_image.mp hme with ⟨k, hk, rfl⟩
      rw [Finset.mem_Ioo] at hk
      rcases Finset.mem_biUnion.mp he with ⟨face, hface, hein⟩
      have hface' := List.mem_toFinset.mp hface
      have hd := icoFaces_distinct face hface'
      simp only [Finset.mem_insert, Finset.mem_singleton] at hein
      rcases hein with rfl | rfl | rfl
      · rcases Nat.lt_or_ge face.1 face.2.1 with hab | hab
        · rw [sortPair_of_le (by omega)]
          refine ⟨(face, k, f - k), (globalSamples_mem f _ _ _).mpr ⟨hface', by omega, by omega⟩, ?_⟩
          simp only [wtm]
          rw [show f - k - (f - k) = 0 by omega]
          simp
        · have hab' : face.2.1 < face.1 := by omega
          rw [sortPair_of_gt hab']
          refine ⟨(face, f - k, k), (globalSamples_mem f _ _ _).mpr ⟨hface', by omega, by omega⟩, ?_⟩
          simp only [wtm]
          rw [show f - (f - k) - k = 0 by omega]
          simp only [Multiset.replicate_zero, add_zero]
          exact add_comm _ _
      · rcases Nat.lt_or_ge face.2.1 face.2.2 with hbc | hbc
        · rw [sortPair_of_le (by omega)]
          refine ⟨(face, 0, k), (globalSamples_mem f _ _ _).mpr ⟨hface', by omega, by omega⟩, ?_⟩
          simp [wtm]
        · have hbc' : face.2.2 < face.2.1 := by
            rcases Nat.lt_or_ge face.2.2 face.2.1 with h | h
            · exact h
            · omega
          rw [sortPair_of_gt hbc']
          refine ⟨(face, 0, f - k), (globalSamples_mem f _ _ _).mpr ⟨hface', by omega, by omega⟩, ?_⟩
          simp only [wtm, Multiset.replicate_zero, zero_add]
          rw [show f - 0 - (f - k) = k by omega]
          exact add_comm _ _
      · rcases Nat.lt_or_ge face.1 face.2.2 with hac | hac
        · rw [sortPair_of_le (by omega)]
          refine ⟨(face, k, 0), (globalSamples_mem f _ _ _).mpr ⟨hface', by omega, by omega⟩, ?_⟩
          simp [wtm]
        · have hac' : face.2.2 < face.1 := by omega
          rw [sortPair_of_gt hac']
          refine ⟨(face, f - k, 0), (globalSamples_mem f _ _ _).mpr ⟨hface', by omega, by omega⟩, ?_⟩
          simp only [wtm, Multiset.replicate_zero, add_zero]
          rw [show f - (f - k) - 0 = k by omega]
          exact add_comm _ _
    · -- an interior class comes from an interior sample
      rcases Finset.mem_biUnion.mp hm with ⟨face, hface, hmi⟩
      rcases Finset.mem_image.mp hmi with ⟨ij, hij, rfl⟩
      obtain ⟨h1, h2, h3⟩ := (intIJ_mem f ij).mp hij
      exact ⟨(face, ij.1, ij.2), (globalSamples_mem f _ _ _).mpr
        ⟨List.mem_toFinset.mp hface, by omega, by omega⟩, rfl⟩

theorem polesW_toFinset_card (f : ℕ) (hf : 1 ≤ f) :
    ∀ m ∈ polesW f, m.toFinset.card = 1 := by
  intro m hm
  rcases Finset.mem_image.mp hm with ⟨v, _, rfl⟩
  rw [Multiset.toFinset_replicate, if_neg (by omega)]
  rfl

theorem edgesW_toFinset_card (f : ℕ) : ∀ m ∈ edgesW f, m.toFinset.card = 2 := by
  intro m hm
  rcases Finset.mem_biUnion.mp hm with ⟨e, he, hme⟩
  rcases Finset.mem_image.mp hme with ⟨k, hk, rfl⟩
  rw [Finset.mem_Ioo] at hk
  rw [edge_class_toFinset e.1 e.2 k f hk.1 hk.2]
  exact Finset.card_pair (Nat.ne_of_lt (icoEdges_sorted e he))

theorem intW_toFinset_card (f : ℕ) (hf : 1 ≤ f) :
    ∀ m ∈ intW f, m.toFinset.card = 3 := by
  intro m hm
  rcases Finset.mem_biUnion.mp hm with ⟨face, hface, hmi⟩
  rcases Finset.mem_image.mp hmi with ⟨ij, hij, rfl⟩
  obtain ⟨h1, h2, h3⟩ := (intIJ_mem f ij).mp hij
  rw [wtm_toFinset_int f face ij.1 ij.2 h1 h2 h3 hf]
  have hd := icoFaces_distinct face (List.mem_toFinset.mp hface)
  rw [Finset.card_insert_of_not_mem (by simp [hd.1, hd.2.2]),
    Finset.card_insert_of_not_mem (by simp [hd.2.1])]
  rfl

/-- The number of distinct weight classes of an icosahedral subdivision of
frequency `f ≥ 1` is `10 f² + 2`. -/
theorem wtm_card (f : ℕ) (hf : 1 ≤ f) :
    ((globalSamples f).map (wtm f)).toFinset.card = 10 * f ^ 2 + 2 := by
  rw [wtm_image_eq f hf]
  have hd1 : Disjoint (polesW f) (edgesW f) := by
    rw [Finset.disjoint_left]
    intro m h1 h2
    have hc1 := polesW_toFinset_card f hf m h1
    have hc2 := edgesW_toFinset_card f m h2
    omega
  have hd2 : Disjoint (polesW f ∪ edgesW f) (intW f) := by
    rw [Finset.disjoint_left]
    intro m h1 h2
    have hc3 := intW_toFinset_card f hf m h2
    rcases Finset.mem_union.mp h1 with h | h
    · have := polesW_toFinset_card f hf m h
      omega
    · have := edgesW_toFinset_card f m h
      omega
  rw [Finset.card_union_of_disjoint hd2, Finset.card_union_of_disjoint hd1,
    polesW_card f hf, edgesW_card f, intW_card f hf]
  have h2 := intIJ_card_two f
  obtain ⟨g, rfl⟩ : ∃ g, f = g + 1 := ⟨f - 1, by omega⟩
  have h20 : 20 * (intIJ (g + 1)).card = 10 * ((intIJ (g + 1)).card * 2) := by ring
  rw [h20, h2, show g + 1 - 1 = g from rfl, show g + 1 - 2 = g - 1 by omega]
  cases g with
  | zero => norm_num
  | succ h =>
    rw [show h + 1 - 1 = h from rfl]
    ring

theorem sampleIJ_nodup (f : ℕ) : (sampleIJ f).Nodup := by
  unfold sampleIJ
  rw [List.nodup_flatMap]
  constructor
  · intro i _
    exact (List.nodup_range _).map (fun a b hab => by simpa using congrArg Prod.snd hab)
  · have hp : (List.range (f + 1)).Pairwise (· < ·) := List.pairwise_lt_range _
    refine hp.imp ?_
    intro a b hab x hxa hxb
    rcases List.mem_map.mp hxa with ⟨j1, _, rfl⟩
    rcases List.mem_map.mp hxb with ⟨j2, _, hx⟩
    have h1 := congrArg Prod.fst hx
    simp only at h1
    omega

theorem wtm_inj_face (f : ℕ) (face : Face)
    (hd : face.1 ≠ face.2.1 ∧ face.2.1 ≠ face.2.2 ∧ face.1 ≠ face.2.2)
    (i1 j1 i2 j2 : ℕ) (h : wtm f (face, i1, j1) = wtm f (face, i2, j2)) :
    i1 = i2 ∧ j1 = j2 := by
  have hc1 := congrArg (Multiset.count face.1) h
  have hc2 := congrArg (Multiset.count face.2.1) h
  simp [wtm, Multiset.count_add, Multiset.count_replicate, hd.1, hd.2.1, hd.2.2,
    Ne.symm hd.1, Ne.symm hd.2.1, Ne.symm hd.2.2] at hc1 hc2
  exact ⟨hc1, hc2⟩

/-- The key hypothesis of the counting claim implies that the keys of one
base face's samples are pairwise distinct. -/
theorem perFace_nodup (sqrt cos sin : K → K) (pi radius : K) (f : ℕ)
    (hkey : ∀ s1 ∈ globalSamples f, ∀ s2 ∈ globalSamples f,
      (roundKey (samplePos sqrt cos sin pi radius f s1) =
       roundKey (samplePos sqrt cos sin pi radius f s2) ↔ wtm f s1 = wtm f s2)) :
    ∀ face ∈ icosahedronFaceList, (((sampleIJ f).map (fun ij =>
      samplePos sqrt cos sin pi radius f (face, ij.1, ij.2))).map roundKey).Nodup := by
  intro face hface
  rw [List.map_map]
  refine List.Nodup.map_on ?_ (sampleIJ_nodup f)
  intro ij1 h1 ij2 h2 heq
  obtain ⟨hb1, hb2⟩ := (sampleIJ_mem f ij1).mp h1
  obtain ⟨hc1, hc2⟩ := (sampleIJ_mem f ij2).mp h2
  have hm1 : (face, ij1.1, ij1.2) ∈ globalSamples f :=
    (globalSamples_mem f face ij1.1 ij1.2).mpr ⟨hface, hb1, hb2⟩
  have hm2 : (face, ij2.1, ij2.2) ∈ globalSamples f :=
    (globalSamples_mem f face ij2.1 ij2.2).mpr ⟨hface, hc1, hc2⟩
  have hw := (hkey _ hm1 _ hm2).mp (by simpa using heq)
  have hij := wtm_inj_face f face (icoFaces_distinct face hface) ij1.1 ij1.2 ij2.1 ij2.2 hw
  exact Prod.ext hij.1 hij.2

/-- Vertex count of the merged mesh under the key hypothesis. -/
theorem calculate_verts_count (sqrt cos sin : K → K) (pi radius : K) (f : ℕ) (hf : 1 ≤ f)
    (hkey : ∀ s1 ∈ globalSamples f, ∀ s2 ∈ globalSamples f,
      (roundKey (samplePos sqrt cos sin pi radius f s1) =
       roundKey (samplePos sqrt cos sin pi radius f s2) ↔ wtm f s1 = wtm f s2)) :
    (calculate sqrt cos sin pi radius f).1.length = 10 * f ^ 2 + 2 := by
  rw [calculate_eq_merge, mergeDuplicates_fst, length_mergeVertsSpec,
    accPair_fst_of_nodup sqrt cos sin pi radius f
      (perFace_nodup sqrt cos sin pi radius f hkey), List.map_map]
  rw [toFinset_card_map_eq (globalSamples f)
    (roundKey ∘ samplePos sqrt cos sin pi radius f) (wtm f)
    (fun a ha b hb => by simpa using hkey a ha b hb)]
  exact wtm_card f hf

theorem subdivideTriangle_snd_eq (sqrt : K → K) (radius : K) (v0 v1 v2 : Pt K) (f : ℕ) :
    (subdivideTriangle sqrt radius v0 v1 v2 f).2 =
      gridFaces (((List.range (f + 1)).foldl (fun acc i =>
        let r := drun acc.1 ((List.range (f + 1 - i)).map
          (fun j => normalizeAndScale sqrt radius (baryPoint v0 v1 v2 f i j)))
        (r.1, acc.2 ++ [r.2])) (⟨⟨[], []⟩, []⟩ : DState K × List (List ℕ))).2) f := rfl

theorem subTriOf_snd_length (sqrt cos sin : K → K) (pi radius : K) (f : ℕ) (face : Face) :
    (subTriOf sqrt cos sin pi radius f face).2.length = f ^ 2 := by
  have h1 : subTriOf sqrt cos sin pi radius f face =
      subdivideTriangle sqrt radius
        ((createIcosahedron sqrt cos sin pi radius).1.getD face.1 (0, 0, 0))
        ((createIcosahedron sqrt cos sin pi radius).1.getD face.2.1 (0, 0, 0))
        ((createIcosahedron sqrt cos sin pi radius).1.getD face.2.2 (0, 0, 0)) f := rfl
  rw [h1, subdivideTriangle_snd_eq]
  exact length_gridFaces _ f

theorem sum_map_const_nat {α : Type} (l : List α) (c : ℕ) :
    (l.map (fun _ => c)).sum = l.length * c := by
  induction l with
  | nil => simp
  | cons a l' ih =>
    simp only [List.map_cons, List.sum_cons, ih, List.length_cons]
    ring

/-- The accumulated face buffer always holds `20 f²` faces. -/
theorem accPair_snd_length (sqrt cos sin : K → K) (pi radius : K) (f : ℕ) :
    (accPair sqrt cos sin pi radius f).2.length = 20 * f ^ 2 := by
  rw [accPair_eq]
  show (offsetFacesAcc (subTriOf sqrt cos sin pi radius f) 0 icosahedronFaceList).length = _
  rw [offsetFacesAcc_length]
  rw [List.map_congr_left (fun face _ => subTriOf_snd_length sqrt cos sin pi radius f face)]
  rw [sum_map_const_nat]
  rw [show icosahedronFaceList.length = 20 from rfl]

theorem globalSamples_length (f : ℕ) :
    (globalSamples f).length = 20 * (sampleIJ f).length := by
  unfold globalSamples
  rw [List.length_flatMap]
  rw [List.map_congr_left (fun face _ => by
    show (List.length ∘ fun face => (sampleIJ f).map (fun ij => (face, ij.1, ij.2))) face =
      (sampleIJ f).length
    simp)]
  rw [sum_map_const_nat, show icosahedronFaceList.length = 20 from rfl]

/-- Global vertex index of grid position `(i, j)` of base face number `t` in
the concatenated vertex buffer. -/
def gIdx (f t i j : ℕ) : ℕ := rowStart f i + j + t * (sampleIJ f).length

theorem gIdx_lt (f t i j : ℕ) (ht : t < 20) (hi : i ≤ f) (hj : j ≤ f - i) :
    gIdx f t i j < 20 * (sampleIJ f).length := by
  have hr : rowStart f i + j < (sampleIJ f).length := rank_lt_total f i j hi hj
  unfold gIdx
  calc rowStart f i + j + t * (sampleIJ f).length
      < (sampleIJ f).length + t * (sampleIJ f).length := by omega
    _ = (t + 1) * (sampleIJ f).length := by ring
    _ ≤ 20 * (sampleIJ f).length := Nat.mul_le_mul_right _ (by omega)

theorem gIdx_inj (f t i1 j1 i2 j2 : ℕ) (hi1 : i1 ≤ f) (hj1 : j1 ≤ f - i1)
    (hi2 : i2 ≤ f) (hj2 : j2 ≤ f - i2) (h : gIdx f t i1 j1 = gIdx f t i2 j2) :
    rowStart f i1 + j1 = rowStart f i2 + j2 := by
  unfold gIdx at h
  omega

/-- Every accumulated face, under the per-face key-distinctness hypothesis:
it joins three grid positions of one base face `t`, in the upward or the
downward pattern. -/
theorem accPair_faces_char (sqrt cos sin : K → K) (pi radius : K) (f : ℕ)
    (hnd : ∀ face ∈ icosahedronFaceList, (((sampleIJ f).map (fun ij =>
      samplePos sqrt cos sin pi radius f (face, ij.1, ij.2))).map roundKey).Nodup) :
    ∀ g ∈ (accPair sqrt cos sin pi radius f).2, ∃ t i j, t < 20 ∧ i < f ∧ j < f - i ∧
      (g = (gIdx f t i j, gIdx f t (i + 1) j, gIdx f t i (j + 1)) ∨
       (j < f - i - 1 ∧
        g = (gIdx f t (i + 1) j, gIdx f t (i + 1) (j + 1), gIdx f t i (j + 1)))) := by
  intro g hg
  have hg2 : g ∈ offsetFacesAcc (subTriOf sqrt cos sin pi radius f) 0 icosahedronFaceList := by
    rw [accPair_eq] at hg
    exact hg
  have hS : ∀ face ∈ icosahedronFaceList,
      (subTriOf sqrt cos sin pi radius f face).1.length = (sampleIJ f).length := by
    intro face hface
    rw [subTriOf_of_nodup sqrt cos sin pi radius f face (hnd face hface)]
    simp
  rcases offsetFacesAcc_mem (subTriOf sqrt cos sin pi radius f) (sampleIJ f).length
      icosahedronFaceList 0 hS g hg2 with ⟨t, ht, lf, hlf, hglf⟩
  have ht20 : t < 20 := by
    rw [show icosahedronFaceList.length = 20 from rfl] at ht
    exact ht
  have hmem : icosahedronFaceList.getD t (0, 0, 0) ∈ icosahedronFaceList := by
    rw [List.getD_eq_getElem _ _ ht]
    exact List.getElem_mem ht
  rw [subTriOf_of_nodup sqrt cos sin pi radius f _ (hnd _ hmem)] at hlf
  have hlf2 : lf ∈ gridFacesSpec (gridOf f) f := by
    rw [← gridFaces_eq_spec]
    exact hlf
  unfold gridFacesSpec at hlf2
  rcases List.mem_flatMap.mp hlf2 with ⟨i, hi, hlf3⟩
  rcases List.mem_flatMap.mp hlf3 with ⟨j, hj, hlf4⟩
  have hif : i < f := List.mem_range.mp hi
  have hjf : j < f - i := List.mem_range.mp hj
  refine ⟨t, i, j, ht20, hif, hjf, ?_⟩
  have e00 : ((gridOf f).getD i []).getD j 0 = rowStart f i + j :=
    gridOf_getD f i j (by omega) (by omega)
  have e10 : ((gridOf f).getD (i + 1) []).getD j 0 = rowStart f (i + 1) + j :=
    gridOf_getD f (i + 1) j (by omega) (by omega)
  have e01 : ((gridOf f).getD i []).getD (j + 1) 0 = rowStart f i + (j + 1) :=
    gridOf_getD f i (j + 1) (by omega) (by omega)
  have ha : 0 + t * (sampleIJ f).length = t * (sampleIJ f).length := Nat.zero_add _
  rcases List.mem_cons.mp hlf4 with hup | hdown
  · left
    rw [hglf, hup, ha]
    unfold gIdx
    rw [e00, e10, e01]
  · by_cases hc : j < f - i - 1
    · rw [if_pos hc] at hdown
      have e11 : ((gridOf f).getD (i + 1) []).getD (j + 1) 0 = rowStart f (i + 1) + (j + 1) :=
        gridOf_getD f (i + 1) (j + 1) (by omega) (by omega)
      right
      refine ⟨hc, ?_⟩
      rw [hglf, List.mem_singleton.mp hdown, ha]
      unfold gIdx
      rw [e10, e11, e01]
    · rw [if_neg hc] at hdown
      exact absurd hdown (List.not_mem_nil lf)

/-- Reading the accumulated vertex buffer at a global grid index yields the
corresponding sample position. -/
theorem accPair_fst_getD (sqrt cos sin : K → K) (pi radius : K) (f : ℕ)
    (hnd : ∀ face ∈ icosahedronFaceList, (((sampleIJ f).map (fun ij =>
      samplePos sqrt cos sin pi radius f (face, ij.1, ij.2))).map roundKey).Nodup)
    (t i j : ℕ) (ht : t < 20) (hi : i ≤ f) (hj : j ≤ f - i) :
    (accPair sqrt cos sin pi radius f).1.getD (gIdx f t i j) (0, 0, 0) =
      samplePos sqrt cos sin pi radius f (icosahedronFaceList.getD t (0, 0, 0), i, j) := by
  have hr : rowStart f i + j < (sampleIJ f).length := rank_lt_total f i j hi hj
  have hlt : gIdx f t i j < (globalSamples f).length := by
    rw [globalSamples_length]
    exact gIdx_lt f t i j ht hi hj
  rw [accPair_fst_of_nodup sqrt cos sin pi radius f hnd,
    getD_map (globalSamples f) _ _ _ ((0, 0, 0), 0, 0) hlt]
  have hgs : (globalSamples f).getD (gIdx f t i j) ((0, 0, 0), 0, 0) =
      (icosahedronFaceList.getD t (0, 0, 0), i, j) := by
    unfold globalSamples
    have hlen : ∀ face ∈ icosahedronFaceList,
        ((sampleIJ f).map (fun ij => (face, ij.1, ij.2))).length = (sampleIJ f).length := by
      intro face _
      simp
    have hidx : gIdx f t i j = t * (sampleIJ f).length + (rowStart f i + j) := by
      unfold gIdx
      ring
    rw [hidx, flatMap_getD_const_len _ (sampleIJ f).length _ (0, 0, 0)
      icosahedronFaceList hlen t (rowStart f i + j)
      (by rw [show icosahedronFaceList.length = 20 from rfl]; exact ht) hr]
    rw [getD_map (sampleIJ f) _ _ _ (0, 0) hr, sampleIJ_getD f i j hi hj]
  rw [hgs]

theorem roundKey_getD_mem_merged (verts : List (Pt K)) (idx : ℕ) (h : idx < verts.length) :
    roundKey (verts.getD idx (0, 0, 0)) ∈ (mergeVertsSpec verts).map roundKey := by
  have hv : verts.getD idx (0, 0, 0) ∈ verts := by
    rw [List.getD_eq_getElem _ _ h]
    exact List.getElem_mem h
  exact (mergeVertsSpecAux_key_mem verts [] _ (by simp)).mp (List.mem_map_of_mem _ hv)

/-- Two distinct grid positions of one base face get distinct merged indices,
under the key hypothesis. -/
theorem merged_corner_ne (sqrt cos sin : K → K) (pi radius : K) (f : ℕ)
    (hkey : ∀ s1 ∈ globalSamples f, ∀ s2 ∈ globalSamples f,
      (roundKey (samplePos sqrt cos sin pi radius f s1) =
       roundKey (samplePos sqrt cos sin pi radius f s2) ↔ wtm f s1 = wtm f s2))
    (t i1 j1 i2 j2 : ℕ) (ht : t < 20) (hi1 : i1 ≤ f) (hj1 : j1 ≤ f - i1)
    (hi2 : i2 ≤ f) (hj2 : j2 ≤ f - i2) (hne : ¬(i1 = i2 ∧ j1 = j2)) :
    mergeIndexSpec (accPair sqrt cos sin pi radius f).1
      (roundKey ((accPair sqrt cos sin pi radius f).1.getD (gIdx f t i1 j1) (0, 0, 0))) ≠
    mergeIndexSpec (accPair sqrt cos sin pi radius f).1
      (roundKey ((accPair sqrt cos sin pi radius f).1.getD (gIdx f t i2 j2) (0, 0, 0))) := by
  have hnd := perFace_nodup sqrt cos sin pi radius f hkey
  intro heq
  have hvl : (accPair sqrt cos sin pi radius f).1.length = 20 * (sampleIJ f).length := by
    rw [accPair_fst_of_nodup sqrt cos sin pi radius f hnd, List.length_map,
      globalSamples_length]
  have hm1 := roundKey_getD_mem_merged (accPair sqrt cos sin pi radius f).1 (gIdx f t i1 j1)
    (by rw [hvl]; exact gIdx_lt f t i1 j1 ht hi1 hj1)
  have hm2 := roundKey_getD_mem_merged (accPair sqrt cos sin pi radius f).1 (gIdx f t i2 j2)
    (by rw [hvl]; exact gIdx_lt f t i2 j2 ht hi2 hj2)
  have hkeq := mergeIndexSpec_inj _ _ _ hm1 hm2 heq
  rw [accPair_fst_getD sqrt cos sin pi radius f hnd t i1 j1 ht hi1 hj1,
    accPair_fst_getD sqrt cos sin pi radius f hnd t i2 j2 ht hi2 hj2] at hkeq
  have htL : t < icosahedronFaceList.length := by
    rw [show icosahedronFaceList.length = 20 from rfl]
    exact ht
  have hfmem : icosahedronFaceList.getD t (0, 0, 0) ∈ icosahedronFaceList := by
    rw [List.getD_eq_getElem _ _ htL]
    exact List.getElem_mem htL
  have hs1 : (icosahedronFaceList.getD t (0, 0, 0), i1, j1) ∈ globalSamples f :=
    (globalSamples_mem f _ i1 j1).mpr ⟨hfmem, hi1, hj1⟩
  have hs2 : (icosahedronFaceList.getD t (0, 0, 0), i2, j2) ∈ globalSamples f :=
    (globalSamples_mem f _ i2 j2).mpr ⟨hfmem, hi2, hj2⟩
  have hw := (hkey _ hs1 _ hs2).mp hkeq
  exact hne (wtm_inj_face f _ (icoFaces_distinct _ hfmem) i1 j1 i2 j2 hw)

/-- When every remapped face has pairwise distinct indices, the filter of the
merge face pass keeps everything. -/
theorem length_mergeFacesSpec_of_ne (verts : List (Pt K)) (faces : List Face)
    (h : ∀ g ∈ faces,
      mergeIndexSpec verts (roundKey (verts.getD g.1 (0, 0, 0))) ≠
        mergeIndexSpec verts (roundKey (verts.getD g.2.1 (0, 0, 0))) ∧
      mergeIndexSpec verts (roundKey (verts.getD g.2.1 (0, 0, 0))) ≠
        mergeIndexSpec verts (roundKey (verts.getD g.2.2 (0, 0, 0))) ∧
      mergeIndexSpec verts (roundKey (verts.getD g.1 (0, 0, 0))) ≠
        mergeIndexSpec verts (roundKey (verts.getD g.2.2 (0, 0, 0)))) :
    (mergeFacesSpec verts faces).length = faces.length := by
  unfold mergeFacesSpec
  have hall : ∀ nf ∈ (faces.map (fun g =>
      (mergeIndexSpec verts (roundKey (verts.getD g.1 (0, 0, 0))),
       mergeIndexSpec verts (roundKey (verts.getD g.2.1 (0, 0, 0))),
       mergeIndexSpec verts (roundKey (verts.getD g.2.2 (0, 0, 0)))))),
      (decide (nf.1 ≠ nf.2.1 ∧ nf.2.1 ≠ nf.2.2 ∧ nf.1 ≠ nf.2.2)) = true := by
    intro nf hnf
    rcases List.mem_map.mp hnf with ⟨g, hg, hgnf⟩
    rw [decide_eq_true_eq, ← hgnf]
    exact h g hg
  rw [List.filter_eq_self.mpr hall, List.length_map]

/-- Under the key hypothesis every accumulated face survives the merge, so
the merged mesh has `20 f²` faces. -/
theorem calculate_faces_count (sqrt cos sin : K → K) (pi radius : K) (f : ℕ)
    (hkey : ∀ s1 ∈ globalSamples f, ∀ s2 ∈ globalSamples f,
      (roundKey (samplePos sqrt cos sin pi radius f s1) =
       roundKey (samplePos sqrt cos sin pi radius f s2) ↔ wtm f s1 = wtm f s2)) :
    (calculate sqrt cos sin pi radius f).2.length = 20 * f ^ 2 := by
  have hnd := perFace_nodup sqrt cos sin pi radius f hkey
  have hvl : (accPair sqrt cos sin pi radius f).1.length = 20 * (sampleIJ f).length := by
    rw [accPair_fst_of_nodup sqrt cos sin pi radius f hnd, List.length_map,
      globalSamples_length]
  have hchar := accPair_faces_char sqrt cos sin pi radius f hnd
  have hb : ∀ g ∈ (accPair sqrt cos sin pi radius f).2,
      g.1 < (accPair sqrt cos sin pi radius f).1.length ∧
      g.2.1 < (accPair sqrt cos sin pi radius f).1.length ∧
      g.2.2 < (accPair sqrt cos sin pi radius f).1.length := by
    intro g hg
    rcases g with ⟨g1, g2, g3⟩
    rcases hchar _ hg with ⟨t, i, j, ht, hi, hj, hform | ⟨hjd, hform⟩⟩ <;>
      rw [Prod.mk.injEq, Prod.mk.injEq] at hform <;>
      obtain ⟨he1, he2, he3⟩ := hform <;>
      subst he1 <;> subst he2 <;> subst he3 <;>
      rw [hvl] <;>
      exact ⟨gIdx_lt f t _ _ ht (by omega) (by omega),
        gIdx_lt f t _ _ ht (by omega) (by omega),
        gIdx_lt f t _ _ ht (by omega) (by omega)⟩
  have hne : ∀ g ∈ (accPair sqrt cos sin pi radius f).2,
      mergeIndexSpec (accPair sqrt cos sin pi radius f).1
        (roundKey ((accPair sqrt cos sin pi radius f).1.getD g.1 (0, 0, 0))) ≠
      mergeIndexSpec (accPair sqrt cos sin pi radius f).1
        (roundKey ((accPair sqrt cos sin pi radius f).1.getD g.2.1 (0, 0, 0))) ∧
      mergeIndexSpec (accPair sqrt cos sin pi radius f).1
        (roundKey ((accPair sqrt cos sin pi radius f).1.getD g.2.1 (0, 0, 0))) ≠
      mergeIndexSpec (accPair sqrt cos sin pi radius f).1
        (roundKey ((accPair sqrt cos sin pi radius f).1.getD g.2.2 (0, 0, 0))) ∧
      mergeIndexSpec (accPair sqrt cos sin pi radius f).1
        (roundKey ((accPair sqrt cos sin pi radius f).1.getD g.1 (0, 0, 0))) ≠
      mergeIndexSpec (accPair sqrt cos sin pi radius f).1
        (roundKey ((accPair sqrt cos sin pi radius f).1.getD g.2.2 (0, 0, 0))) := by
    intro g hg
    rcases g with ⟨g1, g2, g3⟩
    rcases hchar _ hg with ⟨t, i, j, ht, hi, hj, hform | ⟨hjd, hform⟩⟩
    · rw [Prod.mk.injEq, Prod.mk.injEq] at hform
      obtain ⟨he1, he2, he3⟩ := hform
      subst he1
      subst he2
      subst he3
      exact ⟨merged_corner_ne sqrt cos sin pi radius f hkey t i j (i + 1) j ht
          (by omega) (by omega) (by omega) (by omega) (by omega),
        merged_corner_ne sqrt cos sin pi radius f hkey t (i + 1) j i (j + 1) ht
          (by omega) (by omega) (by omega) (by omega) (by omega),
        merged_corner_ne sqrt cos sin pi radius f hkey t i j i (j + 1) ht
          (by omega) (by omega) (by omega) (by omega) (by omega)⟩
    · rw [Prod.mk.injEq, Prod.mk.injEq] at hform
      obtain ⟨he1, he2, he3⟩ := hform
      subst he1
      subst he2
      subst he3
      exact ⟨merged_corner_ne sqrt cos sin pi radius f hkey t (i + 1) j (i + 1) (j + 1) ht
          (by omega) (by omega) (by omega) (by omega) (by omega),
        merged_corner_ne sqrt cos sin pi radius f hkey t (i + 1) (j + 1) i (j + 1) ht
          (by omega) (by omega) (by omega) (by omega) (by omega),
        merged_corner_ne sqrt cos sin pi radius f hkey t (i + 1) j i (j + 1) ht
          (by omega) (by omega) (by omega) (by omega) (by omega)⟩
  rw [calculate_eq_merge, mergeDuplicates_snd_eq_spec _ _ hb,
    length_mergeFacesSpec_of_ne _ _ hne, accPair_snd_length]

/-! ### Unconditional structure of the accumulated vertex buffer -/

theorem dstep_verts_cases (st : DState K) (p : Pt K) :
    ((dstep st p).1).verts = st.verts ∨ ((dstep st p).1).verts = st.verts ++ [p] := by
  simp only [dstep]
  cases halo : alookup st.vmap (roundKey p)
  · exact Or.inr rfl
  · exact Or.inl rfl

theorem drun_verts_extend (pts : List (Pt K)) : ∀ st : DState K,
    ∃ l, ((drun st pts).1).verts = st.verts ++ l ∧ ∀ v ∈ l, v ∈ pts := by
  induction pts with
  | nil => intro st; exact ⟨[], by simp [drun], by simp⟩
  | cons p ps ih =>
    intro st
    rcases ih (dstep st p).1 with ⟨l, hl, hlm⟩
    have hgoal : ((drun st (p :: ps)).1).verts = ((drun (dstep st p).1 ps).1).verts := rfl
    rcases dstep_verts_cases st p with hd | hd
    · refine ⟨l, ?_, fun v hv => List.mem_cons_of_mem _ (hlm v hv)⟩
      rw [hgoal, hl, hd]
    · refine ⟨p :: l, ?_, ?_⟩
      · rw [hgoal, hl, hd]
        simp
      · intro v hv
        rcases List.mem_cons.mp hv with h | h
        · exact h ▸ List.mem_cons_self _ _
        · exact List.mem_cons_of_mem _ (hlm v h)

/-- Every vertex collected by the row fold of `_subdivide_triangle` is either
an initial vertex or one of the row points. -/
theorem subdivide_fold_verts (rows : ℕ → List (Pt K)) :
    ∀ (is : List ℕ) (acc : DState K × List (List ℕ)),
    ∀ v ∈ ((is.foldl (fun acc i =>
        let r := drun acc.1 (rows i)
        (r.1, acc.2 ++ [r.2])) acc).1).verts,
      v ∈ acc.1.verts ∨ ∃ i ∈ is, v ∈ rows i := by
  intro is
  induction is with
  | nil => intro acc v hv; exact Or.inl hv
  | cons i is' ih =>
    intro acc v hv
    rw [List.foldl_cons] at hv
    rcases ih _ v hv with hc | ⟨i', hi', hr⟩
    · have hc2 : v ∈ ((drun acc.1 (rows i)).1).verts := hc
      rcases drun_verts_extend (rows i) acc.1 with ⟨l, hl, hlm⟩
      rw [hl] at hc2
      rcases List.mem_append.mp hc2 with h | h
      · exact Or.inl h
      · exact Or.inr ⟨i, by simp, hlm v h⟩
    · exact Or.inr ⟨i', by simp [hi'], hr⟩

/-- The row fold only appends vertices. -/
theorem subdivide_fold_verts_extend (rows : ℕ → List (Pt K)) :
    ∀ (is : List ℕ) (acc : DState K × List (List ℕ)),
    ∃ l, ((is.foldl (fun acc i =>
        let r := drun acc.1 (rows i)
        (r.1, acc.2 ++ [r.2])) acc).1).verts = acc.1.verts ++ l := by
  intro is
  induction is with
  | nil => intro acc; exact ⟨[], by simp⟩
  | cons i is' ih =>
    intro acc
    rw [List.foldl_cons]
    rcases ih ((fun acc i =>
        let r := drun acc.1 (rows i)
        (r.1, acc.2 ++ [r.2])) acc i) with ⟨l, hl⟩
    rcases drun_verts_extend (rows i) acc.1 with ⟨l2, hl2, _⟩
    refine ⟨l2 ++ l, ?_⟩
    rw [hl]
    have he : ((fun acc i =>
        let r := drun acc.1 (rows i)
        (r.1, acc.2 ++ [r.2])) acc i).1.verts = ((drun acc.1 (rows i)).1).verts := rfl
    rw [he, hl2, List.append_assoc]

/-- Every vertex kept by `_subdivide_triangle` is a projected barycentric
sample (no hypothesis on key collisions). -/
theorem subdivideTriangle_fst_mem (sqrt : K → K) (radius : K) (v0 v1 v2 : Pt K) (f : ℕ) :
    ∀ v ∈ (subdivideTriangle sqrt radius v0 v1 v2 f).1,
      ∃ i j : ℕ, v = normalizeAndScale sqrt radius (baryPoint v0 v1 v2 f i j) := by
  have hfst : (subdivideTriangle sqrt radius v0 v1 v2 f).1 =
      (((List.range (f + 1)).foldl (fun acc i =>
        let r := drun acc.1 ((fun i => (List.range (f + 1 - i)).map
          (fun j => normalizeAndScale sqrt radius (baryPoint v0 v1 v2 f i j))) i)
        (r.1, acc.2 ++ [r.2])) (⟨⟨[], []⟩, []⟩ : DState K × List (List ℕ))).1).verts := rfl
  intro v hv
  rw [hfst] at hv
  rcases subdivide_fold_verts (fun i => (List.range (f + 1 - i)).map
      (fun j => normalizeAndScale sqrt radius (baryPoint v0 v1 v2 f i j)))
      (List.range (f + 1)) _ v hv with hc | ⟨i, _, hr⟩
  · exact absurd hc (List.not_mem_nil v)
  · rcases List.mem_map.mp hr with ⟨j, _, hj⟩
    exact ⟨i, j, hj.symm⟩

/-- The first vertex kept by `_subdivide_triangle` is the projection of the
`(0, 0)` barycentric sample. -/
theorem subdivideTriangle_fst_head (sqrt : K → K) (radius : K) (v0 v1 v2 : Pt K) (f : ℕ) :
    ∃ l, (subdivideTriangle sqrt radius v0 v1 v2 f).1 =
      normalizeAndScale sqrt radius (baryPoint v0 v1 v2 f 0 0) :: l := by
  have hfst : (subdivideTriangle sqrt radius v0 v1 v2 f).1 =
      (((List.range (f + 1)).foldl (fun acc i =>
        let r := drun acc.1 ((fun i => (List.range (f + 1 - i)).map
          (fun j => normalizeAndScale sqrt radius (baryPoint v0 v1 v2 f i j))) i)
        (r.1, acc.2 ++ [r.2])) (⟨⟨[], []⟩, []⟩ : DState K × List (List ℕ))).1).verts := rfl
  rcases subdivide_fold_verts_extend (fun i => (List.range (f + 1 - i)).map
      (fun j => normalizeAndScale sqrt radius (baryPoint v0 v1 v2 f i j)))
      ((List.range f).map Nat.succ)
      ((fun (acc : DState K × List (List ℕ)) (i : ℕ) =>
        let r := drun acc.1 ((fun i => (List.range (f + 1 - i)).map
          (fun j => normalizeAndScale sqrt radius (baryPoint v0 v1 v2 f i j))) i)
        (r.1, acc.2 ++ [r.2])) (⟨⟨[], []⟩, []⟩ : DState K × List (List ℕ)) 0) with ⟨l, hl⟩
  have hrow : (fun i => (List.range (f + 1 - i)).map
      (fun j => normalizeAndScale sqrt radius (baryPoint v0 v1 v2 f i j))) 0 =
      normalizeAndScale sqrt radius (baryPoint v0 v1 v2 f 0 0) ::
        ((List.range f).map Nat.succ).map
          (fun j => normalizeAndScale sqrt radius (baryPoint v0 v1 v2 f 0 j)) := by
    show (List.range (f + 1)).map _ = _
    rw [List.range_succ_eq_map, List.map_cons]
  have hdstep : (dstep (⟨[], []⟩ : DState K)
      (normalizeAndScale sqrt radius (baryPoint v0 v1 v2 f 0 0))).1.verts =
      [normalizeAndScale sqrt radius (baryPoint v0 v1 v2 f 0 0)] := rfl
  rcases drun_verts_extend (((List.range f).map Nat.succ).map
      (fun j => normalizeAndScale sqrt radius (baryPoint v0 v1 v2 f 0 j)))
      (dstep (⟨[], []⟩ : DState K)
        (normalizeAndScale sqrt radius (baryPoint v0 v1 v2 f 0 0))).1 with ⟨l2, hl2, _⟩
  rw [hdstep] at hl2
  refine ⟨l2 ++ l, ?_⟩
  rw [hfst, List.range_succ_eq_map, List.foldl_cons, hl]
  have he : ((fun (acc : DState K × List (List ℕ)) (i : ℕ) =>
      let r := drun acc.1 ((fun i => (List.range (f + 1 - i)).map
        (fun j => normalizeAndScale sqrt radius (baryPoint v0 v1 v2 f i j))) i)
      (r.1, acc.2 ++ [r.2])) (⟨⟨[], []⟩, []⟩ : DState K × List (List ℕ)) 0).1.verts =
      ((drun (⟨[], []⟩ : DState K) ((fun i => (List.range (f + 1 - i)).map
        (fun j => normalizeAndScale sqrt radius (baryPoint v0 v1 v2 f i j))) 0)).1).verts := rfl
  rw [he, hrow]
  have hsplit : (drun (⟨[], []⟩ : DState K)
      (normalizeAndScale sqrt radius (baryPoint v0 v1 v2 f 0 0) ::
        ((List.range f).map Nat.succ).map
          (fun j => normalizeAndScale sqrt radius (baryPoint v0 v1 v2 f 0 j)))).1.verts =
      ((drun (dstep (⟨[], []⟩ : DState K)
        (normalizeAndScale sqrt radius (baryPoint v0 v1 v2 f 0 0))).1
        (((List.range f).map Nat.succ).map
          (fun j => normalizeAndScale sqrt radius (baryPoint v0 v1 v2 f 0 j)))).1).verts := rfl
  rw [hsplit, hl2]
  rfl

/-- Every accumulated vertex is the image of some point under
normalize-and-scale. -/
theorem accPair_fst_mem (sqrt cos sin : K → K) (pi radius : K) (f : ℕ) :
    ∀ v ∈ (accPair sqrt cos sin pi radius f).1,
      ∃ p : Pt K, v = normalizeAndScale sqrt radius p := by
  intro v hv
  have hv2 : v ∈ icosahedronFaceList.flatMap
      (fun face => (subTriOf sqrt cos sin pi radius f face).1) := by
    rw [accPair_eq] at hv
    exact hv
  rcases List.mem_flatMap.mp hv2 with ⟨face, _, hvf⟩
  have hvf2 : v ∈ (subdivideTriangle sqrt radius
      ((createIcosahedron sqrt cos sin pi radius).1.getD face.1 (0, 0, 0))
      ((createIcosahedron sqrt cos sin pi radius).1.getD face.2.1 (0, 0, 0))
      ((createIcosahedron sqrt cos sin pi radius).1.getD face.2.2 (0, 0, 0)) f).1 := hvf
  rcases subdivideTriangle_fst_mem _ _ _ _ _ _ v hvf2 with ⟨i, j, hij⟩
  exact ⟨_, hij⟩

/-- Every vertex of the final mesh is the image of some point under
normalize-and-scale. -/
theorem calculate_fst_mem (sqrt cos sin : K → K) (pi radius : K) (f : ℕ) :
    ∀ v ∈ (calculate sqrt cos sin pi radius f).1,
      ∃ p : Pt K, v = normalizeAndScale sqrt radius p := by
  intro v hv
  rw [calculate_eq_merge, mergeDuplicates_fst] at hv
  exact accPair_fst_mem sqrt cos sin pi radius f v
    (mergeVertsSpecAux_subset [] _ v hv)

theorem mergeVertsSpec_head_mem (p : Pt K) (ps : List (Pt K)) :
    p ∈ mergeVertsSpec (p :: ps) := by
  show p ∈ mergeVertsSpecAux [] (p :: ps)
  rw [mergeVertsSpecAux, if_neg (List.not_mem_nil _)]
  exact List.mem_cons_self _ _

/-! ### Corner samples and fixed points of normalize-and-scale -/

theorem baryPoint_00 (v0 v1 v2 : Pt K) (f : ℕ) (hf : 0 < f) :
    baryPoint v0 v1 v2 f 0 0 = v2 := by
  simp only [baryPoint, if_pos hf]
  push_cast
  refine Prod.ext ?_ (Prod.ext ?_ ?_) <;> simp

theorem baryPoint_01 (v0 v1 v2 : Pt K) : baryPoint v0 v1 v2 1 0 1 = v1 := by
  simp only [baryPoint, if_pos Nat.one_pos]
  push_cast
  refine Prod.ext ?_ (Prod.ext ?_ ?_) <;> simp

theorem baryPoint_10 (v0 v1 v2 : Pt K) : baryPoint v0 v1 v2 1 1 0 = v0 := by
  simp only [baryPoint, if_pos Nat.one_pos]
  push_cast
  refine Prod.ext ?_ (Prod.ext ?_ ?_) <;> simp

/-- A point whose computed length equals the positive radius is fixed by
normalize-and-scale. -/
theorem normalizeAndScale_fixed (sqrt : K → K) (radius : K) (hr : 0 < radius) (v : Pt K)
    (h : sqrt (v.1 * v.1 + v.2.1 * v.2.1 + v.2.2 * v.2.2) = radius) :
    normalizeAndScale sqrt radius v = v := by
  simp only [normalizeAndScale]
  rw [h, if_neg hr.ne']
  have e : ∀ x : K, radius * x / radius = x := fun x => by
    rw [mul_comm, mul_div_assoc, div_self hr.ne', mul_one]
  rw [e, e, e]

/-- A nonzero output of normalize-and-scale over the reals has Euclidean norm
exactly `radius`. -/
theorem normalizeAndScale_norm (radius : ℝ) (hr : 0 < radius) (p : Pt ℝ)
    (hnz : normalizeAndScale Real.sqrt radius p ≠ ((0 : ℝ), (0 : ℝ), (0 : ℝ))) :
    Real.sqrt
      ((normalizeAndScale Real.sqrt radius p).1 * (normalizeAndScale Real.sqrt radius p).1 +
       (normalizeAndScale Real.sqrt radius p).2.1 * (normalizeAndScale Real.sqrt radius p).2.1 +
       (normalizeAndScale Real.sqrt radius p).2.2 * (normalizeAndScale Real.sqrt radius p).2.2) =
      radius := by
  by_cases hL : Real.sqrt (p.1 * p.1 + p.2.1 * p.2.1 + p.2.2 * p.2.2) = 0
  · exfalso
    apply hnz
    simp only [normalizeAndScale]
    rw [if_pos hL]
  · have hs0 : (0 : ℝ) ≤ p.1 * p.1 + p.2.1 * p.2.1 + p.2.2 * p.2.2 :=
      add_nonneg (add_nonneg (mul_self_nonneg _) (mul_self_nonneg _)) (mul_self_nonneg _)
    have hspos : (0 : ℝ) < p.1 * p.1 + p.2.1 * p.2.1 + p.2.2 * p.2.2 := by
      rcases lt_or_eq_of_le hs0 with h | h
      · exact h
      · exact absurd (by rw [← h, Real.sqrt_zero]) hL
    have hL2 : Real.sqrt (p.1 * p.1 + p.2.1 * p.2.1 + p.2.2 * p.2.2) *
        Real.sqrt (p.1 * p.1 + p.2.1 * p.2.1 + p.2.2 * p.2.2) =
        p.1 * p.1 + p.2.1 * p.2.1 + p.2.2 * p.2.2 := Real.mul_self_sqrt hs0
    have hNeq : normalizeAndScale Real.sqrt radius p =
        (radius * p.1 / Real.sqrt (p.1 * p.1 + p.2.1 * p.2.1 + p.2.2 * p.2.2),
         radius * p.2.1 / Real.sqrt (p.1 * p.1 + p.2.1 * p.2.1 + p.2.2 * p.2.2),
         radius * p.2.2 / Real.sqrt (p.1 * p.1 + p.2.1 * p.2.1 + p.2.2 * p.2.2)) := by
      simp only [normalizeAndScale]
      rw [if_neg hL]
    rw [hNeq]
    have hcomp : ∀ x : ℝ,
        (radius * x / Real.sqrt (p.1 * p.1 + p.2.1 * p.2.1 + p.2.2 * p.2.2)) *
        (radius * x / Real.sqrt (p.1 * p.1 + p.2.1 * p.2.1 + p.2.2 * p.2.2)) =
        radius * radius * (x * x) / (p.1 * p.1 + p.2.1 * p.2.1 + p.2.2 * p.2.2) := by
      intro x
      rw [div_mul_div_comm, hL2]
      congr 1
      ring
    show Real.sqrt
        ((radius * p.1 / Real.sqrt (p.1 * p.1 + p.2.1 * p.2.1 + p.2.2 * p.2.2)) *
         (radius * p.1 / Real.sqrt (p.1 * p.1 + p.2.1 * p.2.1 + p.2.2 * p.2.2)) +
         (radius * p.2.1 / Real.sqrt (p.1 * p.1 + p.2.1 * p.2.1 + p.2.2 * p.2.2)) *
         (radius * p.2.1 / Real.sqrt (p.1 * p.1 + p.2.1 * p.2.1 + p.2.2 * p.2.2)) +
         (radius * p.2.2 / Real.sqrt (p.1 * p.1 + p.2.1 * p.2.1 + p.2.2 * p.2.2)) *
         (radius * p.2.2 / Real.sqrt (p.1 * p.1 + p.2.1 * p.2.1 + p.2.2 * p.2.2))) = radius
    rw [hcomp, hcomp, hcomp, div_add_div_same, div_add_div_same]
    have hnum : radius * radius * (p.1 * p.1) + radius * radius * (p.2.1 * p.2.1) +
        radius * radius * (p.2.2 * p.2.2) =
        radius * radius * (p.1 * p.1 + p.2.1 * p.2.1 + p.2.2 * p.2.2) := by
      ring
    rw [hnum, mul_div_assoc, div_self hspos.ne', mul_one, Real.sqrt_mul_self hr.le]

theorem sampleIJ_length_two (f : ℕ) : (sampleIJ f).length * 2 = (f + 1) * (f + 2) := by
  rw [sampleIJ_length]
  unfold rowStart
  rw [sum_map_list_range]
  have hrefl := Finset.sum_range_reflect (fun r => f + 1 - r) (f + 1)
  have hcong : ∀ j ∈ Finset.range (f + 1), f + 1 - (f + 1 - 1 - j) = j + 1 := by
    intro j hj
    have := Finset.mem_range.mp hj
    omega
  rw [← hrefl, Finset.sum_congr rfl hcong, Finset.sum_add_distrib, Finset.sum_const,
    smul_eq_mul, mul_one, Finset.card_range]
  have hg2 : (∑ i in Finset.range (f + 1), i) * 2 = (f + 1) * f := by
    simpa using Finset.sum_range_id_mul_two (f + 1)
  obtain ⟨m, hm⟩ : ∃ m, (∑ i in Finset.range (f + 1), i) = m := ⟨_, rfl⟩
  rw [hm] at hg2 ⊢
  nlinarith [hg2]

/-- The first vertex of the real mesh at radius 1 is the north pole. -/
theorem real_unit_vertex_mem :
    ((0 : ℝ), (0 : ℝ), (1 : ℝ)) ∈ (calculate Real.sqrt Real.cos Real.sin Real.pi 1 1).1 := by
  have hfix : normalizeAndScale Real.sqrt 1 ((0 : ℝ), (0 : ℝ), (1 : ℝ)) =
      ((0 : ℝ), (0 : ℝ), (1 : ℝ)) := by
    refine normalizeAndScale_fixed Real.sqrt 1 one_pos _ ?_
    show Real.sqrt ((0 : ℝ) * 0 + 0 * 0 + 1 * 1) = 1
    rw [show (0 : ℝ) * 0 + 0 * 0 + 1 * 1 = 1 by norm_num]
    exact Real.sqrt_one
  have hc2 : (createIcosahedron Real.sqrt Real.cos Real.sin Real.pi 1).1.getD 0 (0, 0, 0) =
      normalizeAndScale Real.sqrt 1 ((0 : ℝ), (0 : ℝ), (1 : ℝ)) := rfl
  have hflat : (accPair Real.sqrt Real.cos Real.sin Real.pi 1 1).1 =
      (subdivideTriangle Real.sqrt 1
        ((createIcosahedron Real.sqrt Real.cos Real.sin Real.pi 1).1.getD 1 (0, 0, 0))
        ((createIcosahedron Real.sqrt Real.cos Real.sin Real.pi 1).1.getD 2 (0, 0, 0))
        ((createIcosahedron Real.sqrt Real.cos Real.sin Real.pi 1).1.getD 0 (0, 0, 0)) 1).1 ++
      ([(2, 3, 0), (3, 4, 0), (4, 5, 0), (5, 1, 0),
        (5, 6, 1), (1, 7, 2), (2, 8, 3), (3, 9, 4), (4, 10, 5),
        (1, 6, 7), (2, 7, 8), (3, 8, 9), (4, 9, 10), (5, 10, 6),
        (6, 11, 7), (7, 11, 8), (8, 11, 9), (9, 11, 10), (10, 11, 6)] : List Face).flatMap
        (fun face => (subTriOf Real.sqrt Real.cos Real.sin Real.pi 1 1 face).1) := by
    rw [accPair_eq]
    rfl
  rcases subdivideTriangle_fst_head Real.sqrt 1
      ((createIcosahedron Real.sqrt Real.cos Real.sin Real.pi 1).1.getD 1 (0, 0, 0))
      ((createIcosahedron Real.sqrt Real.cos Real.sin Real.pi 1).1.getD 2 (0, 0, 0))
      ((createIcosahedron Real.sqrt Real.cos Real.sin Real.pi 1).1.getD 0 (0, 0, 0)) 1
    with ⟨l, hl⟩
  have hhead : normalizeAndScale Real.sqrt 1
      (baryPoint
        ((createIcosahedron Real.sqrt Real.cos Real.sin Real.pi 1).1.getD 1 (0, 0, 0))
        ((createIcosahedron Real.sqrt Real.cos Real.sin Real.pi 1).1.getD 2 (0, 0, 0))
        ((createIcosahedron Real.sqrt Real.cos Real.sin Real.pi 1).1.getD 0 (0, 0, 0)) 1 0 0) =
      ((0 : ℝ), (0 : ℝ), (1 : ℝ)) := by
    rw [baryPoint_00 _ _ _ 1 Nat.one_pos, hc2, hfix, hfix]
  rw [hhead] at hl
  rw [calculate_eq_merge, mergeDuplicates_fst, hflat, hl, List.cons_append]
  exact mergeVertsSpec_head_mem _ _

end Geodesic

namespace Geodesic

/-! ### A concrete rational instantiation used for closed computations -/

/-- Stand-in square root over `ℚ`: constantly 1 (the pipeline's control flow
never depends on the numeric values, only on key equality). -/
def qsqrt : ℚ → ℚ := fun _ => 1

/-- Stand-in cosine over `ℚ`. -/
def qcos : ℚ → ℚ := fun q => q

/-- Stand-in sine over `ℚ`: shifted so that the twelve raw icosahedron
vertices get pairwise distinct rounded keys. -/
def qsin : ℚ → ℚ := fun q => q + 7

/-- Stand-in π over `ℚ`. -/
def qpi : ℚ := 1

end Geodesic

namespace Geodesic

variable {K : Type} [LinearOrderedField K] [FloorRing K] [DecidableEq K]

/-- C1 (amended): the frozen claim's universal count is false — rounding can
conflate distinct samples (see the counterexample below, radius 10⁻¹²).  The
counts hold for every frequency ≥ 1 whenever two samples collide under the
rounded key exactly when they are the same barycentric combination of the
same base vertices (the rounding never conflates geometrically distinct
samples and never separates coinciding ones — `hkey`): then the merged mesh
of `GeodesicCalculator.calculate` has exactly `10·f² + 2` vertices and
`20·f²` faces. -/
theorem claim_C1 (sqrt cos sin : K → K) (pi radius : K) (f : ℕ) (hf : 1 ≤ f)
    (hkey : ∀ s1 ∈ globalSamples f, ∀ s2 ∈ globalSamples f,
      (roundKey (samplePos sqrt cos sin pi radius f s1) =
       roundKey (samplePos sqrt cos sin pi radius f s2) ↔ wtm f s1 = wtm f s2)) :
    (calculate sqrt cos sin pi radius f).1.length = 10 * f ^ 2 + 2 ∧
    (calculate sqrt cos sin pi radius f).2.length = 20 * f ^ 2 :=
  ⟨calculate_verts_count sqrt cos sin pi radius f hf hkey,
   calculate_faces_count sqrt cos sin pi radius f hkey⟩

set_option maxRecDepth 1000000 in
theorem claim_C1_witness :
    ((1 : ℕ) ≤ 1 ∧ (∀ s1 ∈ globalSamples 1, ∀ s2 ∈ globalSamples 1,
      (roundKey (samplePos qsqrt qcos qsin qpi 1 1 s1) =
       roundKey (samplePos qsqrt qcos qsin qpi 1 1 s2) ↔ wtm 1 s1 = wtm 1 s2))) ∧
    (calculate qsqrt qcos qsin qpi 1 1).1.length = 10 * 1 ^ 2 + 2 ∧
    (calculate qsqrt qcos qsin qpi 1 1).2.length = 20 * 1 ^ 2 := by
  have hk : ∀ s1 ∈ globalSamples 1, ∀ s2 ∈ globalSamples 1,
      (roundKey (samplePos qsqrt qcos qsin qpi 1 1 s1) =
       roundKey (samplePos qsqrt qcos qsin qpi 1 1 s2) ↔ wtm 1 s1 = wtm 1 s2) := by
    with_unfolding_all decide
  exact ⟨⟨le_refl 1, hk⟩, claim_C1 qsqrt qcos qsin qpi 1 1 (le_refl 1) hk⟩

set_option maxRecDepth 1000000 in
/-- C1 counterexample (refuting the frozen claim): at radius `10⁻¹²` and
frequency 1 — a radius > 0 and frequency ≥ 1 the claim covers — every
coordinate rounds to 0 at 8 digits, so every sample gets the key `(0, 0, 0)`;
the mesh collapses to 1 vertex and 0 faces instead of the claimed 12 and 20. -/
theorem claim_C1_counterexample :
    (0 : ℚ) < 1 / 10 ^ 12 ∧
    (calculate qsqrt qcos qsin qpi (1 / 10 ^ 12) 1).1.length = 1 ∧
    (calculate qsqrt qcos qsin qpi (1 / 10 ^ 12) 1).2 = [] := by
  refine ⟨by norm_num, ?_, ?_⟩ <;> with_unfolding_all rfl

set_option maxRecDepth 1000000 in
/-- C2 (code bug): the source performs no validation at all.
`calculate` with radius = -1 returns a full mesh (here 42 vertices and 80
faces at frequency 2) and `calculate(radius = 10, frequency = 0)` returns a
partial 11-vertex, 0-face mesh; no InvalidArgument error path exists, so
a mesh is produced in both cases, contradicting the claim. -/
theorem claim_C2 :
    (calculate qsqrt qcos qsin qpi (-1) 2).1.length = 42 ∧
    (calculate qsqrt qcos qsin qpi (-1) 2).2.length = 80 ∧
    (calculate qsqrt qcos qsin qpi 10 0).1.length = 11 ∧
    (calculate qsqrt qcos qsin qpi 10 0).2.length = 0 := by
  refine ⟨?_, ?_, ?_, ?_⟩ <;> with_unfolding_all rfl

/-- C3: every nonzero vertex of the real mesh lies at Euclidean distance
exactly `radius` from the origin, hence within the claimed 1e-6 tolerance
(the zero vector can only arise from the degenerate zero-length sentinel). -/
theorem claim_C3 (radius : ℝ) (f : ℕ) (hr : 0 < radius) :
    ∀ v ∈ (calculate Real.sqrt Real.cos Real.sin Real.pi radius f).1,
      v ≠ ((0 : ℝ), (0 : ℝ), (0 : ℝ)) →
      |Real.sqrt (v.1 * v.1 + v.2.1 * v.2.1 + v.2.2 * v.2.2) - radius| ≤ 1e-6 := by
  intro v hv hnz
  rcases calculate_fst_mem Real.sqrt Real.cos Real.sin Real.pi radius f v hv with ⟨p, hp⟩
  rw [hp] at hnz ⊢
  rw [normalizeAndScale_norm radius hr p hnz, sub_self, abs_zero]
  norm_num

theorem claim_C3_witness :
    ((0 : ℝ) < 1 ∧
     ((0 : ℝ), (0 : ℝ), (1 : ℝ)) ∈ (calculate Real.sqrt Real.cos Real.sin Real.pi 1 1).1 ∧
     ((0 : ℝ), (0 : ℝ), (1 : ℝ)) ≠ ((0 : ℝ), (0 : ℝ), (0 : ℝ))) ∧
    |Real.sqrt (((0 : ℝ), (0 : ℝ), (1 : ℝ)).1 * ((0 : ℝ), (0 : ℝ), (1 : ℝ)).1 +
       ((0 : ℝ), (0 : ℝ), (1 : ℝ)).2.1 * ((0 : ℝ), (0 : ℝ), (1 : ℝ)).2.1 +
       ((0 : ℝ), (0 : ℝ), (1 : ℝ)).2.2 * ((0 : ℝ), (0 : ℝ), (1 : ℝ)).2.2) - 1| ≤ 1e-6 := by
  have hnz : ((0 : ℝ), (0 : ℝ), (1 : ℝ)) ≠ ((0 : ℝ), (0 : ℝ), (0 : ℝ)) := by
    simp [Prod.ext_iff]
  exact ⟨⟨one_pos, real_unit_vertex_mem, hnz⟩,
    claim_C3 1 1 one_pos _ real_unit_vertex_mem hnz⟩

/-- C4: the merge step equals its specification — deduplicate vertices by
first occurrence of the 8-digit rounded key, remap every face index through
the merged index of its vertex's key, and drop faces whose three merged
indices are not pairwise distinct — whenever the face indices are in bounds. -/
theorem claim_C4 (verts : List (Pt K)) (faces : List Face)
    (hb : ∀ g ∈ faces, g.1 < verts.length ∧ g.2.1 < verts.length ∧ g.2.2 < verts.length) :
    mergeDuplicates verts faces = (mergeVertsSpec verts, mergeFacesSpec verts faces) :=
  mergeDuplicates_eq_spec verts faces hb

set_option maxRecDepth 100000 in
theorem claim_C4_witness :
    (∀ g ∈ [((0, 1, 0) : Face)],
      g.1 < ([((0 : ℚ), 0, 0), ((0 : ℚ), 0, 0)]).length ∧
      g.2.1 < ([((0 : ℚ), 0, 0), ((0 : ℚ), 0, 0)]).length ∧
      g.2.2 < ([((0 : ℚ), 0, 0), ((0 : ℚ), 0, 0)]).length) ∧
    mergeDuplicates [((0 : ℚ), 0, 0), ((0 : ℚ), 0, 0)] [((0, 1, 0) : Face)] =
      (mergeVertsSpec [((0 : ℚ), 0, 0), ((0 : ℚ), 0, 0)],
       mergeFacesSpec [((0 : ℚ), 0, 0), ((0 : ℚ), 0, 0)] [((0, 1, 0) : Face)]) := by
  have hb : ∀ g ∈ [((0, 1, 0) : Face)],
      g.1 < ([((0 : ℚ), 0, 0), ((0 : ℚ), 0, 0)]).length ∧
      g.2.1 < ([((0 : ℚ), 0, 0), ((0 : ℚ), 0, 0)]).length ∧
      g.2.2 < ([((0 : ℚ), 0, 0), ((0 : ℚ), 0, 0)]).length := by
    with_unfolding_all decide
  exact ⟨hb, claim_C4 _ _ hb⟩

/-- C5: every face of the merged mesh has pairwise distinct indices, and all
three indices are within bounds of the mesh's vertex list (this holds for
every instantiation, not only radius > 0 and frequency ≥ 1). -/
theorem claim_C5 (sqrt cos sin : K → K) (pi radius : K) (f : ℕ) :
    ∀ g ∈ (calculate sqrt cos sin pi radius f).2,
      (g.1 ≠ g.2.1 ∧ g.2.1 ≠ g.2.2 ∧ g.1 ≠ g.2.2) ∧
      g.1 < (calculate sqrt cos sin pi radius f).1.length ∧
      g.2.1 < (calculate sqrt cos sin pi radius f).1.length ∧
      g.2.2 < (calculate sqrt cos sin pi radius f).1.length := by
  intro g hg
  rw [calculate_eq_merge] at hg ⊢
  exact mergeDuplicates_mem_faces _ _ g hg

set_option maxRecDepth 1000000 in
theorem claim_C5_witness :
    ((0, 2, 1) : Face) ∈ (calculate qsqrt qcos qsin qpi 1 1).2 ∧
    (((0 : ℕ) ≠ 2 ∧ (2 : ℕ) ≠ 1 ∧ (0 : ℕ) ≠ 1) ∧
     0 < (calculate qsqrt qcos qsin qpi 1 1).1.length ∧
     2 < (calculate qsqrt qcos qsin qpi 1 1).1.length ∧
     1 < (calculate qsqrt qcos qsin qpi 1 1).1.length) := by
  have hm : ((0, 2, 1) : Face) ∈ (calculate qsqrt qcos qsin qpi 1 1).2 := by
    with_unfolding_all decide
  exact ⟨hm, claim_C5 qsqrt qcos qsin qpi 1 1 (0, 2, 1) hm⟩

/-- C6: the face walk of `_subdivide_triangle` is exactly the claimed grid
pattern — for each row `i < freq` and column `j < freq - i` the upward
triangle `(grid(i,j), grid(i+1,j), grid(i,j+1))`, plus the downward triangle
`(grid(i+1,j), grid(i+1,j+1), grid(i,j+1))` whenever `j < freq - i - 1` —
and each subdivision call emits exactly `freq²` local faces. -/
theorem claim_C6 (sqrt : K → K) (radius : K) (v0 v1 v2 : Pt K)
    (grid : List (List ℕ)) (freq : ℕ) :
    gridFaces grid freq = gridFacesSpec grid freq ∧
    (subdivideTriangle sqrt radius v0 v1 v2 freq).2.length = freq ^ 2 :=
  ⟨gridFaces_eq_spec grid freq, by
    rw [subdivideTriangle_snd_eq]
    exact length_gridFaces _ freq⟩

/-- C7 (amended): `_subdivide_triangle` deduplicates by rounded key inside
the call, contrary to the claim's "no deduplication performed inside the
call"; the count `(f+1)(f+2)/2` therefore only holds when the sample keys
are pairwise distinct, which this theorem proves. -/
theorem claim_C7 (sqrt : K → K) (radius : K) (v0 v1 v2 : Pt K) (f : ℕ)
    (hnd : ((samplePts sqrt radius v0 v1 v2 f).map roundKey).Nodup) :
    (subdivideTriangle sqrt radius v0 v1 v2 f).1.length = (f + 1) * (f + 2) / 2 := by
  rw [subdivideTriangle_of_nodup sqrt radius v0 v1 v2 f hnd]
  show (samplePts sqrt radius v0 v1 v2 f).length = _
  have h1 : (samplePts sqrt radius v0 v1 v2 f).length = (sampleIJ f).length := by
    unfold samplePts
    exact List.length_map _ _
  rw [h1]
  have h2 := sampleIJ_length_two f
  obtain ⟨m, hm⟩ : ∃ m, (f + 1) * (f + 2) = m := ⟨_, rfl⟩
  rw [hm] at h2 ⊢
  omega

/-- C7 counterexample (refuting the frozen claim): at frequency 1 on a
degenerate triangle whose three corners coincide, the in-call deduplication
collapses the three corner samples to a single vertex, not the claimed
`(1+1)(1+2)/2 = 3`. -/
theorem claim_C7_counterexample :
    (subdivideTriangle qsqrt 1 ((1 : ℚ), 0, 0) ((1 : ℚ), 0, 0) ((1 : ℚ), 0, 0) 1).1.length = 1 ∧
    (1 + 1) * (1 + 2) / 2 = 3 := by
  constructor
  · with_unfolding_all rfl
  · rfl

set_option maxRecDepth 100000 in
theorem claim_C7_witness :
    ((samplePts qsqrt 1 ((1 : ℚ), 0, 0) ((0 : ℚ), 1, 0) ((0 : ℚ), 0, 1) 1).map roundKey).Nodup ∧
    (subdivideTriangle qsqrt 1 ((1 : ℚ), 0, 0) ((0 : ℚ), 1, 0) ((0 : ℚ), 0, 1) 1).1.length =
      (1 + 1) * (1 + 2) / 2 := by
  have hnd : ((samplePts qsqrt 1 ((1 : ℚ), 0, 0) ((0 : ℚ), 1, 0)
      ((0 : ℚ), 0, 1) 1).map roundKey).Nodup := by
    with_unfolding_all decide
  exact ⟨hnd, claim_C7 qsqrt 1 _ _ _ 1 hnd⟩

/-- C8: the merge step is idempotent — applied to its own output it returns
that output unchanged. -/
theorem claim_C8 (verts : List (Pt K)) (faces : List Face) :
    mergeDuplicates (mergeDuplicates verts faces).1 (mergeDuplicates verts faces).2 =
      mergeDuplicates verts faces :=
  mergeDuplicates_idem verts faces

/-- C9: at frequency 1, when the three corners already lie on the sphere
(their computed length equals the positive radius) and have pairwise distinct
rounded keys, the subdivision returns exactly the three corner samples
(unchanged by the projection) and the single original triangle over them. -/
theorem claim_C9 (sqrt : K → K) (radius : K) (hr : 0 < radius) (v0 v1 v2 : Pt K)
    (h0 : sqrt (v0.1 * v0.1 + v0.2.1 * v0.2.1 + v0.2.2 * v0.2.2) = radius)
    (h1 : sqrt (v1.1 * v1.1 + v1.2.1 * v1.2.1 + v1.2.2 * v1.2.2) = radius)
    (h2 : sqrt (v2.1 * v2.1 + v2.2.1 * v2.2.1 + v2.2.2 * v2.2.2) = radius)
    (hk01 : roundKey v0 ≠ roundKey v1) (hk12 : roundKey v1 ≠ roundKey v2)
    (hk02 : roundKey v0 ≠ roundKey v2) :
    subdivideTriangle sqrt radius v0 v1 v2 1 = ([v2, v1, v0], [(0, 2, 1)]) := by
  have hf0 := normalizeAndScale_fixed sqrt radius hr v0 h0
  have hf1 := normalizeAndScale_fixed sqrt radius hr v1 h1
  have hf2 := normalizeAndScale_fixed sqrt radius hr v2 h2
  have hsp : samplePts sqrt radius v0 v1 v2 1 = [v2, v1, v0] := by
    show [normalizeAndScale sqrt radius (baryPoint v0 v1 v2 1 0 0),
          normalizeAndScale sqrt radius (baryPoint v0 v1 v2 1 0 1),
          normalizeAndScale sqrt radius (baryPoint v0 v1 v2 1 1 0)] = [v2, v1, v0]
    rw [baryPoint_00 v0 v1 v2 1 Nat.one_pos, baryPoint_01, baryPoint_10, hf2, hf1, hf0]
  have hnd : ((samplePts sqrt radius v0 v1 v2 1).map roundKey).Nodup := by
    rw [hsp]
    simp [Ne.symm hk01, Ne.symm hk02, Ne.symm hk12]
  rw [subdivideTriangle_of_nodup sqrt radius v0 v1 v2 1 hnd, hsp]
  rfl

set_option maxRecDepth 100000 in
theorem claim_C9_witness :
    ((0 : ℚ) < 1 ∧
     qsqrt ((1 : ℚ) * 1 + 0 * 0 + 0 * 0) = 1 ∧
     qsqrt ((0 : ℚ) * 0 + 1 * 1 + 0 * 0) = 1 ∧
     qsqrt ((0 : ℚ) * 0 + 0 * 0 + 1 * 1) = 1 ∧
     roundKey ((1 : ℚ), 0, 0) ≠ roundKey ((0 : ℚ), 1, 0) ∧
     roundKey ((0 : ℚ), 1, 0) ≠ roundKey ((0 : ℚ), 0, 1) ∧
     roundKey ((1 : ℚ), 0, 0) ≠ roundKey ((0 : ℚ), 0, 1)) ∧
    subdivideTriangle qsqrt 1 ((1 : ℚ), 0, 0) ((0 : ℚ), 1, 0) ((0 : ℚ), 0, 1) 1 =
      ([((0 : ℚ), 0, 1), ((0 : ℚ), 1, 0), ((1 : ℚ), 0, 0)], [(0, 2, 1)]) := by
  have hk01 : roundKey ((1 : ℚ), 0, 0) ≠ roundKey ((0 : ℚ), 1, 0) := by
    with_unfolding_all decide
  have hk12 : roundKey ((0 : ℚ), 1, 0) ≠ roundKey ((0 : ℚ), 0, 1) := by
    with_unfolding_all decide
  have hk02 : roundKey ((1 : ℚ), 0, 0) ≠ roundKey ((0 : ℚ), 0, 1) := by
    with_unfolding_all decide
  exact ⟨⟨one_pos, rfl, rfl, rfl, hk01, hk12, hk02⟩,
    claim_C9 qsqrt 1 one_pos _ _ _ rfl rfl rfl hk01 hk12 hk02⟩

/-- C10: normalize-and-scale is total over the reals: the length is zero
exactly on the zero vector, in which case the output is the zero-vector
sentinel; on any other input the divisor is provably nonzero and the result
is the componentwise division. -/
theorem claim_C10 (radius : ℝ) (p : Pt ℝ) :
    (p = ((0 : ℝ), (0 : ℝ), (0 : ℝ)) →
      normalizeAndScale Real.sqrt radius p = ((0 : ℝ), (0 : ℝ), (0 : ℝ))) ∧
    (p ≠ ((0 : ℝ), (0 : ℝ), (0 : ℝ)) →
      Real.sqrt (p.1 * p.1 + p.2.1 * p.2.1 + p.2.2 * p.2.2) ≠ 0 ∧
      normalizeAndScale Real.sqrt radius p =
        (radius * p.1 / Real.sqrt (p.1 * p.1 + p.2.1 * p.2.1 + p.2.2 * p.2.2),
         radius * p.2.1 / Real.sqrt (p.1 * p.1 + p.2.1 * p.2.1 + p.2.2 * p.2.2),
         radius * p.2.2 / Real.sqrt (p.1 * p.1 + p.2.1 * p.2.1 + p.2.2 * p.2.2))) := by
  constructor
  · intro hp
    subst hp
    simp only [normalizeAndScale]
    rw [if_pos]
    show Real.sqrt ((0 : ℝ) * 0 + 0 * 0 + 0 * 0) = 0
    rw [show (0 : ℝ) * 0 + 0 * 0 + 0 * 0 = 0 by norm_num]
    exact Real.sqrt_zero
  · intro hp
    rcases p with ⟨x, y, z⟩
    have hne : x ≠ 0 ∨ y ≠ 0 ∨ z ≠ 0 := by
      by_contra hc
      push_neg at hc
      exact hp (by simp [hc.1, hc.2.1, hc.2.2])
    have hs : (0 : ℝ) < x * x + y * y + z * z := by
      rcases hne with h | h | h
      · exact add_pos_of_pos_of_nonneg (add_pos_of_pos_of_nonneg
          (mul_self_pos.mpr h) (mul_self_nonneg _)) (mul_self_nonneg _)
      · exact add_pos_of_pos_of_nonneg (add_pos_of_nonneg_of_pos
          (mul_self_nonneg _) (mul_self_pos.mpr h)) (mul_self_nonneg _)
      · exact add_pos_of_nonneg_of_pos (add_nonneg
          (mul_self_nonneg _) (mul_self_nonneg _)) (mul_self_pos.mpr h)
    have hL : Real.sqrt (x * x + y * y + z * z) ≠ 0 := by
      have := Real.sqrt_pos.mpr hs
      exact this.ne'
    refine ⟨hL, ?_⟩
    simp only [normalizeAndScale]
    rw [if_neg hL]

end Geodesic
